import Mathlib

/-!
# Sorting algorithms of `sort_comparison.hpp`

A shallow embedding of the four sorting routines of `sort_comparison.hpp`
(`builtin_sort`, `selection_sort`, `merge` / `merge_sort_vector`,
`merge_l` / `merge_sort_list`) and of the equality assertions of
`sort_timing.cpp`, followed by theorems about them.

## Conventions of the embedding

* The element type is an arbitrary type `α` carrying the comparisons the
  source uses (`<` in `selection_sort`, `<=` in `merge` and `merge_l`).
  Theorems that need the comparison to be an order assume `LinearOrder α`;
  `std::string` under its lexicographic `operator<` is such a type, and the
  worked examples take `α := String`.  The theorems about stability assume
  a total preorder only, and their examples take the records `Keyed`, which
  are compared by their key alone.
* A `std::vector` is the list of its elements, read through indices
  (`v[i]?`) and written through `List.set`; `push_back x` is `S ++ [x]`.
* A `std::list` is the list of its elements, read through link cursors: a
  cursor is the part of the list from the link it stands on to the end, the
  end cursor is `[]`.
* Every read through an index or a cursor is checked: the routines return
  `Option`, and `none` is an access outside the container (undefined
  behaviour in the source).  A theorem `f S = some out` therefore says that
  the run on `S` performs only valid accesses and ends with `out`.
* Counted `for` loops whose bound and counter the body leaves alone are folds
  over the index range; `while` loops and recursive functions are recursive
  functions with the termination measure of the source.
* For what holds at every moment of a run, `merge_l` is also given as a
  machine that makes one test of a loop condition per step (`merge_l_step`);
  the list it holds at its `return` is the result of `merge_l`.
* Sizes and counters are natural numbers: a container of strings never holds
  `2^63` elements, so the `long long` and `unsigned long long` counters of
  the source do not wrap.
-/

namespace SortComparison

variable {α : Type}

/-! ### Cursors of a `std::list` -/

/-- Dereferencing a cursor of a `std::list` (`*it`): the element of the link
the cursor stands on; the end cursor has none. -/
def deref (it : List α) : Option α :=
  it.head?

/-- The call `advance(it, n)` on a cursor of a `std::list`: `n` times one link
forward; stepping forward from the end cursor is invalid. -/
def advance : List α → Nat → Option (List α)
  | it, 0 => some it
  | [], _ + 1 => none
  | _ :: it, n + 1 => advance it n

/-- A cursor reached by `advance(it, n)` stands `n` links after `it`, and the
list has that many links left; used for the termination of
`merge_sort_list`. -/
theorem advance_eq_some {it it' : List α} {n : Nat} (h : advance it n = some it') :
    it' = it.drop n ∧ n ≤ it.length := by
  induction n generalizing it with
  | zero => simp [advance] at h; simp [h]
  | succ n ih =>
    cases it with
    | nil => simp [advance] at h
    | cons x it =>
      simp only [advance] at h
      have := ih h
      simp [this.1, this.2]

section Defs

variable [LT α] [DecidableRel (α := α) (· < ·)] [LE α] [DecidableRel (α := α) (· ≤ ·)]

/-! ### `builtin_sort` -/

/-- The body of `builtin_sort` is the single call `sort(unsorted.begin(),
unsorted.end())`.  The library routine `std::sort` is not part of the
repository, so it is the parameter `sort`; what the C++ standard promises
about it (the result is a non-decreasing rearrangement of the input) appears
as a hypothesis wherever it is used. -/
def builtin_sort (sort : List α → List α) (unsorted : List α) : List α :=
  sort unsorted

/-! ### `selection_sort` -/

/-- The call `swap(unsorted[least_index], unsorted[k])`: both elements are
read and then each is written to the other position. -/
def swap (unsorted : List α) (least_index k : Nat) : Option (List α) := do
  let a ← unsorted[least_index]?
  let b ← unsorted[k]?
  pure ((unsorted.set least_index b).set k a)

/-- The inner loop of `selection_sort`:
`least_index = k; for (i = k + 1; i < SIZE; ++i) if (unsorted[i] <
unsorted[least_index]) least_index = i;`, returning the final
`least_index`. -/
def find_least (unsorted : List α) (SIZE k : Nat) : Option Nat :=
  (List.range' (k + 1) (SIZE - (k + 1))).foldlM
    (fun least_index i => do
      let a ← unsorted[i]?
      let b ← unsorted[least_index]?
      pure (if a < b then i else least_index))
    k

/-- One round of the outer loop of `selection_sort`: find the least element
of the unsorted zone and exchange it with position `k`. -/
def selection_step (SIZE : Nat) (unsorted : List α) (k : Nat) : Option (List α) := do
  let least_index ← find_least unsorted SIZE k
  swap unsorted least_index k

/-- The outer loop of `selection_sort` run for the rounds `k = 0, …, rounds - 1`
only; `selection_sort` is the case `rounds = SIZE`. -/
def selection_rounds (unsorted : List α) (rounds : Nat) : Option (List α) :=
  (List.range' 0 rounds).foldlM (selection_step unsorted.length) unsorted

/-- The function `selection_sort`: `SIZE = unsorted.size()` is read once, then
`for (k = 0; k < SIZE; ++k)` runs one round per position.  The result is the
content of the vector when the function returns. -/
def selection_sort (unsorted : List α) : Option (List α) :=
  let SIZE := unsorted.length
  (List.range' 0 SIZE).foldlM (selection_step SIZE) unsorted

/-! ### `merge` and `merge_sort_vector` -/

/-- The `while (li < L.size() && ri < R.size())` loop of `merge`, from the
state `(li, ri, S)`; returns the state in which the loop ends. -/
def merge_while (L R : List α) (li ri : Nat) (S : List α) : Option (Nat × Nat × List α) :=
  if li < L.length ∧ ri < R.length then
    match L[li]?, R[ri]? with
    | some x, some y =>
      if x ≤ y then merge_while L R (li + 1) ri (S ++ [x])
      else merge_while L R li (ri + 1) (S ++ [y])
    | _, _ => none
  else some (li, ri, S)
termination_by (L.length - li) + (R.length - ri)
decreasing_by
  all_goals simp_wf
  all_goals omega

/-- A straggler loop of `merge`:
`for (i = first; i < V.size(); ++i) S.push_back(V[i]);`. -/
def push_stragglers (V : List α) (first : Nat) (S : List α) : Option (List α) :=
  (List.range' first (V.length - first)).foldlM
    (fun S i => do
      let x ← V[i]?
      pure (S ++ [x]))
    S

/-- The function `merge`: the main loop, then the stragglers of `L`, then the
stragglers of `R`. -/
def merge (L R : List α) : Option (List α) := do
  let (li, ri, S) ← merge_while L R 0 0 []
  let S ← push_stragglers L li S
  push_stragglers R ri S

/-- The range constructor `StringVector(first, last)` on two random-access
iterators of `v`, given as the positions they stand on: a copy of the
elements at the positions `first, …, last - 1`. -/
def vector_range (v : List α) (first last : Nat) : List α :=
  (v.drop first).take (last - first)

/-- The function `merge_sort_vector`: a vector of size at most 1 is returned as
a copy; otherwise the vector is cut at `HALF_LENGTH = size / 2` into the
copies `left_half` and `right_half`, both are sorted recursively and the two
results are handed to `merge`. -/
def merge_sort_vector (unsorted : List α) : Option (List α) :=
  if unsorted.length ≤ 1 then
    some unsorted
  else
    let HALF_LENGTH := unsorted.length / 2
    let start := 0
    let half_way := 0 + HALF_LENGTH
    let end_of := unsorted.length
    let left_half := vector_range unsorted start half_way
    let right_half := vector_range unsorted half_way end_of
    match merge_sort_vector left_half, merge_sort_vector right_half with
    | some L, some R => merge L R
    | _, _ => none
termination_by unsorted.length
decreasing_by
  all_goals simp_wf
  all_goals simp only [vector_range, List.length_take, List.length_drop]
  all_goals omega

/-- The number of calls of `merge` made while `merge_sort_vector(unsorted)`
runs: none when the size is at most 1, otherwise those of the two recursive
calls and the one call in the `return` statement. -/
def merge_sort_vector_calls (unsorted : List α) : Nat :=
  if unsorted.length ≤ 1 then
    0
  else
    let HALF_LENGTH := unsorted.length / 2
    let start := 0
    let half_way := 0 + HALF_LENGTH
    let end_of := unsorted.length
    let left_half := vector_range unsorted start half_way
    let right_half := vector_range unsorted half_way end_of
    merge_sort_vector_calls left_half + merge_sort_vector_calls right_half + 1
termination_by unsorted.length
decreasing_by
  all_goals simp_wf
  all_goals simp only [vector_range, List.length_take, List.length_drop]
  all_goals omega

/-! ### `merge_l` and `merge_sort_list` -/

/-- The `while (li < L.size() && ri < R.size())` loop of `merge_l`, from the
state `(li, ri, li_it, ri_it, S)`; returns the state in which the loop
ends. -/
def merge_l_while (L R : List α) (li ri : Nat) (li_it ri_it : List α) (S : List α) :
    Option (Nat × Nat × List α × List α × List α) :=
  if li < L.length ∧ ri < R.length then
    match deref li_it, deref ri_it with
    | some x, some y =>
      if x ≤ y then
        match advance li_it 1 with
        | some li_it => merge_l_while L R (li + 1) ri li_it ri_it (S ++ [x])
        | none => none
      else
        match advance ri_it 1 with
        | some ri_it => merge_l_while L R li (ri + 1) li_it ri_it (S ++ [y])
        | none => none
    | _, _ => none
  else some (li, ri, li_it, ri_it, S)
termination_by (L.length - li) + (R.length - ri)
decreasing_by
  all_goals simp_wf
  all_goals omega

/-- A straggler loop of `merge_l`:
`for (i = first; i < V.size(); ++i) { S.push_back(*it); advance(it, 1); }`.
The loop counter `i` is only counted, the elements come from the cursor. -/
def push_stragglers_l (V : List α) (first : Nat) (it : List α) (S : List α) :
    Option (List α × List α) :=
  (List.range' first (V.length - first)).foldlM
    (fun (st : List α × List α) _ => do
      let x ← deref st.1
      let it ← advance st.1 1
      pure (it, st.2 ++ [x]))
    (it, S)

/-- The function `merge_l`: both cursors start on the first links, then the
main loop, the stragglers of `L` and the stragglers of `R`. -/
def merge_l (L R : List α) : Option (List α) := do
  let (li, ri, li_it, ri_it, S) ← merge_l_while L R 0 0 L R []
  let (_, S) ← push_stragglers_l L li li_it S
  let (_, S) ← push_stragglers_l R ri ri_it S
  pure S

/-- The range insertion `lst.insert(pos, first, last)` into an empty list,
`first` and `last` being cursors of one list with `last` not before `first`:
a copy of the links from `first` up to, not including, `last`. -/
def list_range (first last : List α) : List α :=
  first.take (first.length - last.length)

/-- The function `merge_sort_list`: a list of size at most 1 is returned as a
copy; otherwise the cursor `half_way_it` walks `HALF_LENGTH = size / 2` links
from the first link, the links before it are copied into `left_half` and the
links from it on into `right_half`, both are sorted recursively and the two
results are handed to `merge_l`. -/
def merge_sort_list (unsorted : List α) : Option (List α) :=
  if unsorted.length ≤ 1 then
    some unsorted
  else
    let HALF_LENGTH := unsorted.length / 2
    let begin_it := unsorted
    match hw : advance unsorted HALF_LENGTH with
    | none => none
    | some half_way_it =>
      let end_it : List α := []
      let left_half := list_range begin_it half_way_it
      let right_half := list_range half_way_it end_it
      match merge_sort_list left_half, merge_sort_list right_half with
      | some L, some R => merge_l L R
      | _, _ => none
termination_by unsorted.length
decreasing_by
  all_goals simp_wf
  all_goals have hd := advance_eq_some hw
  all_goals simp only [list_range, hd.1, List.length_take, List.length_drop, List.length_nil]
  all_goals omega

/-- The number of calls of `merge_l` made while `merge_sort_list(unsorted)`
runs, counted as in `merge_sort_vector_calls`. -/
def merge_sort_list_calls (unsorted : List α) : Nat :=
  if unsorted.length ≤ 1 then
    0
  else
    let HALF_LENGTH := unsorted.length / 2
    let begin_it := unsorted
    match hw : advance unsorted HALF_LENGTH with
    | none => 0
    | some half_way_it =>
      let end_it : List α := []
      let left_half := list_range begin_it half_way_it
      let right_half := list_range half_way_it end_it
      merge_sort_list_calls left_half + merge_sort_list_calls right_half + 1
termination_by unsorted.length
decreasing_by
  all_goals simp_wf
  all_goals have hd := advance_eq_some hw
  all_goals simp only [list_range, hd.1, List.length_take, List.length_drop, List.length_nil]
  all_goals omega

/-! ### The assertions of `sort_timing.cpp` -/

/-- The call `std::equal(a.begin(), a.end(), b.begin())`: the elements of `a`
are compared one by one with the elements of `b` at the same positions, and
the first difference ends the comparison with `false`.  Reading `b` past its
end is invalid. -/
def std_equal [DecidableEq α] : List α → List α → Option Bool
  | [], _ => some true
  | _ :: _, [] => none
  | x :: a, y :: b => if x = y then std_equal a b else some false

/-- One round of a timing loop of `main` on the words `word_vector`, without
the timing and the printing: the three sorts and `builtin_sort` are run on the
same words and the `assert`s on `std::equal` are evaluated; `some true` means
that every assertion of the round holds.  The flag `do_selection_sort` is the
size test of the round. -/
def harness_round [DecidableEq α] (sort : List α → List α) (do_selection_sort : Bool)
    (word_vector : List α) : Option Bool := do
  let word_list := word_vector
  let selection_sort_solution ←
    if do_selection_sort then selection_sort word_vector else pure []
  let merge_sort_list_solution ← merge_sort_list word_list
  let merge_sort_vector_solution ← merge_sort_vector word_vector
  let builtin_sort_solution := builtin_sort sort word_vector
  let assert_selection ←
    if do_selection_sort then std_equal builtin_sort_solution selection_sort_solution
    else pure true
  let assert_list ← std_equal builtin_sort_solution merge_sort_list_solution
  let assert_vector ← std_equal builtin_sort_solution merge_sort_vector_solution
  pure (assert_selection && assert_list && assert_vector)

/-! ### Reference notions for the claims about `merge` and the merge sorts -/

/-- The left-biased reference merge, written after the wording of the
specification: merging with an empty sequence gives the other sequence, and
of two non-empty sequences the smaller front element is taken, the left one
on a tie. -/
def reference_merge : List α → List α → List α
  | [], R => R
  | L, [] => L
  | x :: L', y :: R' =>
    if x ≤ y then x :: reference_merge L' (y :: R') else y :: reference_merge (x :: L') R'

/-- The two halves that `merge_sort_vector` builds of a vector of size at
least 2, as in its `else` branch: `HALF_LENGTH`, the three iterators and the
two range copies `left_half` and `right_half`. -/
def vector_halves (unsorted : List α) : List α × List α :=
  let HALF_LENGTH := unsorted.length / 2
  let start := 0
  let half_way := 0 + HALF_LENGTH
  let end_of := unsorted.length
  let left_half := vector_range unsorted start half_way
  let right_half := vector_range unsorted half_way end_of
  (left_half, right_half)

/-- The two halves that `merge_sort_list` builds of a list of size at least 2,
as in its `else` branch: the cursor `half_way_it` walks `HALF_LENGTH` links
and the two range insertions fill `left_half` and `right_half`. -/
def list_halves (unsorted : List α) : Option (List α × List α) :=
  let HALF_LENGTH := unsorted.length / 2
  let begin_it := unsorted
  match advance unsorted HALF_LENGTH with
  | none => none
  | some half_way_it =>
    let end_it : List α := []
    let left_half := list_range begin_it half_way_it
    let right_half := list_range half_way_it end_it
    some (left_half, right_half)

/-- The depth of the recursion of `merge_sort_vector(unsorted)`: 0 when the
call returns without calling itself, otherwise one more than the deeper of
its two recursive calls. -/
def merge_sort_vector_depth (unsorted : List α) : Nat :=
  if unsorted.length ≤ 1 then
    0
  else
    let HALF_LENGTH := unsorted.length / 2
    let start := 0
    let half_way := 0 + HALF_LENGTH
    let end_of := unsorted.length
    let left_half := vector_range unsorted start half_way
    let right_half := vector_range unsorted half_way end_of
    1 + max (merge_sort_vector_depth left_half) (merge_sort_vector_depth right_half)
termination_by unsorted.length
decreasing_by
  all_goals simp_wf
  all_goals simp only [vector_range, List.length_take, List.length_drop]
  all_goals omega

/-- The depth of the recursion of `merge_sort_list(unsorted)`, counted as in
`merge_sort_vector_depth`. -/
def merge_sort_list_depth (unsorted : List α) : Nat :=
  if unsorted.length ≤ 1 then
    0
  else
    let HALF_LENGTH := unsorted.length / 2
    let begin_it := unsorted
    match hw : advance unsorted HALF_LENGTH with
    | none => 0
    | some half_way_it =>
      let end_it : List α := []
      let left_half := list_range begin_it half_way_it
      let right_half := list_range half_way_it end_it
      1 + max (merge_sort_list_depth left_half) (merge_sort_list_depth right_half)
termination_by unsorted.length
decreasing_by
  all_goals simp_wf
  all_goals have hd := advance_eq_some hw
  all_goals simp only [list_range, hd.1, List.length_take, List.length_drop, List.length_nil]
  all_goals omega

/-- Stability of one run of a sort, for elements that may compare equal
without being the same: for every `x`, the elements that compare equal to `x`
(`x ≤ y` and `y ≤ x`) stand in `output` in the order in which they stand in
`input`. -/
def stable_output (input output : List α) : Prop :=
  ∀ x : α, output.filter (fun y => decide (x ≤ y ∧ y ≤ x)) =
    input.filter (fun y => decide (x ≤ y ∧ y ≤ x))

/-! ### The run of `merge_l`, one step at a time -/

/-- Where a run of `merge_l` stands: at the test of the main loop, at the test
of the straggler loop of `L` or of `R` with the loop counter `i` of that
loop, or at the `return`. -/
inductive MergeLPhase where
  | main_loop : MergeLPhase
  | stragglers_L (i : Nat) : MergeLPhase
  | stragglers_R (i : Nat) : MergeLPhase
  | returned : MergeLPhase
deriving DecidableEq

/-- The variables of `merge_l` at one moment of a run: the counters `li` and
`ri`, the two cursors, the result `S` built so far, and where the run stands.
The fields `li_advances` and `ri_advances` are not variables of the source:
they count the calls `advance(li_it, 1)` and `advance(ri_it, 1)` made so
far. -/
structure MergeLState (α : Type) where
  /-- Where the run stands. -/
  phase : MergeLPhase
  /-- The counter `li`. -/
  li : Nat
  /-- The counter `ri`. -/
  ri : Nat
  /-- The cursor `li_it` into `L`. -/
  li_it : List α
  /-- The cursor `ri_it` into `R`. -/
  ri_it : List α
  /-- The result list `S`. -/
  S : List α
  /-- The number of calls `advance(li_it, 1)` so far. -/
  li_advances : Nat
  /-- The number of calls `advance(ri_it, 1)` so far. -/
  ri_advances : Nat

/-- The state in which `merge_l(L, R)` enters its main loop: `S` is empty, both
counters are 0 and both cursors stand on the first links. -/
def merge_l_start (L R : List α) : MergeLState α :=
  { phase := MergeLPhase.main_loop, li := 0, ri := 0, li_it := L, ri_it := R, S := [],
    li_advances := 0, ri_advances := 0 }

/-- One step of a run of `merge_l(L, R)`: one test of a loop condition,
followed by the loop body when the test holds and by the move to the next
loop (or to the `return`) when it fails.  In the straggler loops only the
loop counter `i` is incremented, `li` and `ri` keep the values they have when
the main loop ends. -/
def merge_l_step (L R : List α) (st : MergeLState α) : Option (MergeLState α) :=
  match st.phase with
  | MergeLPhase.main_loop =>
    if st.li < L.length ∧ st.ri < R.length then
      match deref st.li_it, deref st.ri_it with
      | some x, some y =>
        if x ≤ y then
          match advance st.li_it 1 with
          | some it =>
            some { st with S := st.S ++ [x], li_it := it, li := st.li + 1,
                           li_advances := st.li_advances + 1 }
          | none => none
        else
          match advance st.ri_it 1 with
          | some it =>
            some { st with S := st.S ++ [y], ri_it := it, ri := st.ri + 1,
                           ri_advances := st.ri_advances + 1 }
          | none => none
      | _, _ => none
    else some { st with phase := MergeLPhase.stragglers_L st.li }
  | MergeLPhase.stragglers_L i =>
    if i < L.length then
      match deref st.li_it with
      | some x =>
        match advance st.li_it 1 with
        | some it =>
          some { st with S := st.S ++ [x], li_it := it, li_advances := st.li_advances + 1,
                         phase := MergeLPhase.stragglers_L (i + 1) }
        | none => none
      | none => none
    else some { st with phase := MergeLPhase.stragglers_R st.ri }
  | MergeLPhase.stragglers_R i =>
    if i < R.length then
      match deref st.ri_it with
      | some x =>
        match advance st.ri_it 1 with
        | some it =>
          some { st with S := st.S ++ [x], ri_it := it, ri_advances := st.ri_advances + 1,
                         phase := MergeLPhase.stragglers_R (i + 1) }
        | none => none
      | none => none
    else some { st with phase := MergeLPhase.returned }
  | MergeLPhase.returned => some st

/-- The run of `merge_l(L, R)` for `n` steps from the state `st`. -/
def merge_l_steps (L R : List α) : Nat → MergeLState α → Option (MergeLState α)
  | 0, st => some st
  | n + 1, st => (merge_l_step L R st).bind (merge_l_steps L R n)

/-- The state of `merge_l(L, R)` after the first `n` steps of its run. -/
def merge_l_run (L R : List α) (n : Nat) : Option (MergeLState α) :=
  merge_l_steps L R n (merge_l_start L R)

/-- The position on which the cursor `li_it` is expected in a state: the
counter that guards its reads, which is `li` in the main loop and the loop
counter `i` in the straggler loop of `L`; after that loop the cursor is used
no more and rests at the end. -/
def li_it_position (L : List α) (st : MergeLState α) : Nat :=
  match st.phase with
  | MergeLPhase.main_loop => st.li
  | MergeLPhase.stragglers_L i => i
  | MergeLPhase.stragglers_R _ => L.length
  | MergeLPhase.returned => L.length

/-- The position on which the cursor `ri_it` is expected in a state: `ri` in
the main loop and up to the straggler loop of `R`, the loop counter `i` of
that loop in it, the end after it. -/
def ri_it_position (R : List α) (st : MergeLState α) : Nat :=
  match st.phase with
  | MergeLPhase.main_loop => st.ri
  | MergeLPhase.stragglers_L _ => st.ri
  | MergeLPhase.stragglers_R i => i
  | MergeLPhase.returned => R.length

/-- The cursor invariant of `merge_l`: each cursor stands on the position its
guarding counter names, that position is not beyond the end, and it is also
the number of times the cursor has been advanced. -/
def merge_l_cursor_invariant (L R : List α) (st : MergeLState α) : Prop :=
  st.li_it = L.drop (li_it_position L st) ∧ st.ri_it = R.drop (ri_it_position R st) ∧
    li_it_position L st ≤ L.length ∧ ri_it_position R st ≤ R.length ∧
    st.li_advances = li_it_position L st ∧ st.ri_advances = ri_it_position R st ∧
    st.li ≤ li_it_position L st ∧ st.ri ≤ ri_it_position R st

/-- The cursors stand on the positions that the variables `li` and `ri` name. -/
def cursors_at_li_ri (L R : List α) (st : MergeLState α) : Prop :=
  st.li_it = L.drop st.li ∧ st.ri_it = R.drop st.ri

end Defs

/-! ### Elements compared by a key -/

/-- A record that is compared by its key alone; `pos` tells records with the
same key apart (in the examples it is the position of the record in the
input). -/
structure Keyed where
  /-- The key, the only field the comparisons look at. -/
  key : Nat
  /-- A field the comparisons do not look at. -/
  pos : Nat
deriving DecidableEq

instance Keyed.instLT : LT Keyed :=
  ⟨fun a b => a.key < b.key⟩

instance Keyed.instLE : LE Keyed :=
  ⟨fun a b => a.key ≤ b.key⟩

instance Keyed.instDecidableLT : DecidableRel (α := Keyed) (· < ·) :=
  fun a b => Nat.decLt a.key b.key

instance Keyed.instDecidableLE : DecidableRel (α := Keyed) (· ≤ ·) :=
  fun a b => Nat.decLe a.key b.key

instance Keyed.instIsTotal : IsTotal Keyed (· ≤ ·) :=
  ⟨fun a b => Nat.le_total a.key b.key⟩

instance Keyed.instIsTrans : IsTrans Keyed (· ≤ ·) :=
  ⟨fun _ _ _ h1 h2 => Nat.le_trans h1 h2⟩

/-! ## Lemmas -/

/-! ### Containers and cursors -/

section ContainerLemmas

theorem push_stragglers_eq (V : List α) (first : Nat) (S : List α) :
    push_stragglers V first S = some (S ++ V.drop first) := by
  unfold push_stragglers
  generalize hn : V.length - first = n
  induction n generalizing first S with
  | zero =>
    have hle : V.length ≤ first := by omega
    simp [List.drop_eq_nil_of_le hle]
  | succ n ih =>
    have hlt : first < V.length := by omega
    rw [List.range'_succ, List.foldlM_cons, List.getElem?_eq_getElem hlt]
    have h := ih (first + 1) (S ++ [V[first]]) (by omega)
    rw [List.drop_eq_getElem_cons hlt]
    simpa using h

theorem deref_drop (V : List α) (i : Nat) (h : i < V.length) : deref (V.drop i) = some V[i] := by
  rw [List.drop_eq_getElem_cons h]; rfl

theorem advance_drop_one (V : List α) (i : Nat) (h : i < V.length) :
    advance (V.drop i) 1 = some (V.drop (i + 1)) := by
  rw [List.drop_eq_getElem_cons h]; simp [advance]

theorem push_stragglers_l_eq (V : List α) (first : Nat) (S : List α) :
    push_stragglers_l V first (V.drop first) S = some (V.drop V.length, S ++ V.drop first) := by
  unfold push_stragglers_l
  generalize hn : V.length - first = n
  induction n generalizing first S with
  | zero =>
    have hle : V.length ≤ first := by omega
    simp [List.drop_eq_nil_of_le hle]
  | succ n ih =>
    have hlt : first < V.length := by omega
    rw [List.range'_succ, List.foldlM_cons]
    simp only [deref_drop V first hlt, advance_drop_one V first hlt]
    have h := ih (first + 1) (S ++ [V[first]]) (by omega)
    rw [List.drop_eq_getElem_cons hlt]
    simpa using h

theorem vector_range_left (S : List α) (n : Nat) : vector_range S 0 n = S.take n := by
  simp [vector_range]

theorem vector_range_right (S : List α) (n : Nat) :
    vector_range S n S.length = S.drop n := by
  simp [vector_range]

theorem advance_drop (it : List α) (n : Nat) (h : n ≤ it.length) :
    advance it n = some (it.drop n) := by
  induction n generalizing it with
  | zero => simp [advance]
  | succ n ih =>
    cases it with
    | nil => simp at h
    | cons x it =>
      simp only [advance, List.drop_succ_cons]
      exact ih it (by simpa using h)

theorem list_range_left (S : List α) (n : Nat) (h : n ≤ S.length) :
    list_range S (S.drop n) = S.take n := by
  simp only [list_range, List.length_drop]
  congr 1
  omega

theorem list_range_right (it : List α) : list_range it [] = it := by
  simp [list_range]

theorem take_half_length_lt (S : List α) (h : ¬ S.length ≤ 1) :
    (S.take (S.length / 2)).length < S.length := by
  rw [List.length_take]; omega

theorem drop_half_length_lt (S : List α) (h : ¬ S.length ≤ 1) :
    (S.drop (S.length / 2)).length < S.length := by
  rw [List.length_drop]; omega

theorem cons_set_perm (l : List α) (i : Nat) (a b : α) (h : l[i]? = some a) :
    (a :: l.set i b).Perm (b :: l) := by
  induction l generalizing i with
  | nil => simp at h
  | cons x xs ih =>
    cases i with
    | zero =>
      simp only [List.getElem?_cons_zero, Option.some.injEq] at h
      subst h
      simpa using List.Perm.swap b x xs
    | succ i =>
      simp only [List.getElem?_cons_succ] at h
      simp only [List.set_cons_succ]
      exact (List.Perm.swap x a _).trans (((ih i h).cons x).trans (List.Perm.swap b x xs))

theorem set_getElem_same (v : List α) (i : Nat) (hi : i < v.length) : v.set i v[i] = v := by
  apply List.ext_getElem?
  intro p
  rw [List.getElem?_set]
  by_cases hp : i = p
  · subst hp
    simp [hi]
  · simp [hp]

theorem swap_spec (v : List α) (i j : Nat) (hi : i < v.length) (hj : j < v.length) :
    ∃ w, swap v i j = some w ∧ w.length = v.length ∧ w.Perm v ∧
      ∀ p, w[p]? = if p = j then v[i]? else if p = i then v[j]? else v[p]? := by
  refine ⟨(v.set i v[j]).set j v[i], ?_, by simp, ?_, ?_⟩
  · simp [swap, List.getElem?_eq_getElem hi, List.getElem?_eq_getElem hj]
  · by_cases hij : i = j
    · subst hij
      rw [List.set_set, set_getElem_same v i hi]
    · have h1 : (v[i] :: v.set i v[j]).Perm (v[j] :: v) :=
        cons_set_perm v i v[i] v[j] (List.getElem?_eq_getElem hi)
      have h2 : (v[j] :: (v.set i v[j]).set j v[i]).Perm (v[i] :: v.set i v[j]) := by
        apply cons_set_perm
        rw [List.getElem?_set]
        simp [hij, List.getElem?_eq_getElem hj]
      exact List.Perm.cons_inv (h2.trans h1)
  · intro p
    rw [List.getElem?_set, List.getElem?_set]
    by_cases hpj : p = j
    · subst hpj
      simp [hi, hj, List.getElem?_eq_getElem hi]
    · by_cases hpi : p = i
      · subst hpi
        simp [hpj, Ne.symm hpj, hi, hj, List.getElem?_eq_getElem hj]
      · simp [hpj, hpi, Ne.symm hpj, Ne.symm hpi]

theorem std_equal_self [DecidableEq α] (a : List α) : std_equal a a = some true := by
  induction a with
  | nil => rfl
  | cons x a ih => simp [std_equal, ih]

theorem merge_sort_vector_calls_small (S : List α) (h : S.length ≤ 1) :
    merge_sort_vector_calls S = 0 := by
  rw [merge_sort_vector_calls, if_pos h]

theorem merge_sort_list_calls_small (S : List α) (h : S.length ≤ 1) :
    merge_sort_list_calls S = 0 := by
  rw [merge_sort_list_calls, if_pos h]

end ContainerLemmas

/-! ### The merges and the merge sorts, for any comparison -/

section MergeLemmas

variable [LE α] [DecidableRel (α := α) (· ≤ ·)]

theorem merge_unfold (L R : List α) : merge L R = (merge_while L R 0 0 []).bind
    (fun st => (push_stragglers L st.1 st.2.2).bind (push_stragglers R st.2.1)) := by
  unfold merge
  rfl

theorem merge_while_then_stragglers (L R : List α) (li ri : Nat) (S : List α) :
    (merge_while L R li ri S).bind
        (fun st => (push_stragglers L st.1 st.2.2).bind (push_stragglers R st.2.1)) =
      some (S ++ List.merge (L.drop li) (R.drop ri) (fun a b => decide (a ≤ b))) := by
  induction li, ri, S using merge_while.induct L R with
  | case1 li ri S hlt x y hy hx hxy ih =>
    rw [merge_while, if_pos hlt, hx, hy]
    simp only [if_pos hxy]
    rw [ih, List.drop_eq_getElem_cons hlt.1, List.drop_eq_getElem_cons hlt.2,
      List.cons_merge_cons]
    rw [List.getElem?_eq_getElem hlt.1] at hx
    rw [List.getElem?_eq_getElem hlt.2] at hy
    cases hx; cases hy
    simp [hxy]
  | case2 li ri S hlt x y hy hx hxy ih =>
    rw [merge_while, if_pos hlt, hx, hy]
    simp only [if_neg hxy]
    rw [ih, List.drop_eq_getElem_cons hlt.1, List.drop_eq_getElem_cons hlt.2,
      List.cons_merge_cons]
    rw [List.getElem?_eq_getElem hlt.1] at hx
    rw [List.getElem?_eq_getElem hlt.2] at hy
    cases hx; cases hy
    simp [hxy]
  | case3 li ri S hlt hno =>
    exact (hno _ _ (List.getElem?_eq_getElem hlt.1) (List.getElem?_eq_getElem hlt.2)).elim
  | case4 li ri S hge =>
    rw [merge_while, if_neg hge]
    simp only [Option.some_bind, push_stragglers_eq]
    by_cases hl : li < L.length
    · have hr : R.length ≤ ri := by
        by_contra hc
        exact hge ⟨hl, by omega⟩
      simp [List.drop_eq_nil_of_le hr]
    · have hl' : L.length ≤ li := by omega
      simp [List.drop_eq_nil_of_le hl']

theorem merge_eq (L R : List α) :
    merge L R = some (List.merge L R (fun a b => decide (a ≤ b))) := by
  rw [merge_unfold, merge_while_then_stragglers]
  simp

theorem merge_l_unfold (L R : List α) : merge_l L R = (merge_l_while L R 0 0 L R []).bind
    (fun st => (push_stragglers_l L st.1 st.2.2.1 st.2.2.2.2).bind
      (fun p => (push_stragglers_l R st.2.1 st.2.2.2.1 p.2).bind (fun q => some q.2))) := by
  unfold merge_l
  rfl

theorem merge_l_while_then_stragglers (L R : List α) (li ri : Nat) (li_it ri_it S : List α)
    (hl : li_it = L.drop li) (hr : ri_it = R.drop ri) :
    (merge_l_while L R li ri li_it ri_it S).bind
        (fun st => (push_stragglers_l L st.1 st.2.2.1 st.2.2.2.2).bind
          (fun p => (push_stragglers_l R st.2.1 st.2.2.2.1 p.2).bind (fun q => some q.2))) =
      some (S ++ List.merge (L.drop li) (R.drop ri) (fun a b => decide (a ≤ b))) := by
  induction li, ri, li_it, ri_it, S using merge_l_while.induct L R with
  | case1 li ri li_it ri_it S hlt x y hy hx hxy li_it' hadv ih =>
    subst hl hr
    rw [deref_drop _ _ hlt.1] at hx
    rw [deref_drop _ _ hlt.2] at hy
    rw [advance_drop_one _ _ hlt.1] at hadv
    cases hx; cases hy; cases hadv
    rw [merge_l_while, if_pos hlt, deref_drop _ _ hlt.1, deref_drop _ _ hlt.2]
    simp only [if_pos hxy, advance_drop_one _ _ hlt.1]
    rw [ih rfl rfl, List.drop_eq_getElem_cons hlt.1, List.drop_eq_getElem_cons hlt.2,
      List.cons_merge_cons]
    simp [hxy]
  | case2 li ri li_it ri_it S hlt x y hy hx hxy hadv =>
    subst hl hr
    rw [advance_drop_one _ _ hlt.1] at hadv
    cases hadv
  | case3 li ri li_it ri_it S hlt x y hy hx hxy ri_it' hadv ih =>
    subst hl hr
    rw [deref_drop _ _ hlt.1] at hx
    rw [deref_drop _ _ hlt.2] at hy
    rw [advance_drop_one _ _ hlt.2] at hadv
    cases hx; cases hy; cases hadv
    rw [merge_l_while, if_pos hlt, deref_drop _ _ hlt.1, deref_drop _ _ hlt.2]
    simp only [if_neg hxy, advance_drop_one _ _ hlt.2]
    rw [ih rfl rfl, List.drop_eq_getElem_cons hlt.1, List.drop_eq_getElem_cons hlt.2,
      List.cons_merge_cons]
    simp [hxy]
  | case4 li ri li_it ri_it S hlt x y hy hx hxy hadv =>
    subst hl hr
    rw [advance_drop_one _ _ hlt.2] at hadv
    cases hadv
  | case5 li ri li_it ri_it S hlt hno =>
    subst hl hr
    exact (hno _ _ (deref_drop _ _ hlt.1) (deref_drop _ _ hlt.2)).elim
  | case6 li ri li_it ri_it S hge =>
    subst hl hr
    rw [merge_l_while, if_neg hge]
    simp only [Option.some_bind, push_stragglers_l_eq]
    by_cases hl : li < L.length
    · have hr : R.length ≤ ri := by
        by_contra hc
        exact hge ⟨hl, by omega⟩
      simp [List.drop_eq_nil_of_le hr]
    · have hl' : L.length ≤ li := by omega
      simp [List.drop_eq_nil_of_le hl']

theorem merge_l_eq (L R : List α) :
    merge_l L R = some (List.merge L R (fun a b => decide (a ≤ b))) := by
  rw [merge_l_unfold, merge_l_while_then_stragglers L R 0 0 L R [] rfl rfl]
  simp

/-- The list variant of `merge` computes what the vector variant computes. -/
theorem merge_l_eq_merge (L R : List α) : merge_l L R = merge L R := by
  rw [merge_l_eq, merge_eq]

theorem merge_sort_vector_small (S : List α) (h : S.length ≤ 1) :
    merge_sort_vector S = some S := by
  rw [merge_sort_vector, if_pos h]

theorem merge_sort_vector_split (S : List α) (h : ¬ S.length ≤ 1) :
    merge_sort_vector S =
      (merge_sort_vector (S.take (S.length / 2))).bind (fun L =>
        (merge_sort_vector (S.drop (S.length / 2))).bind (fun R => merge L R)) := by
  rw [merge_sort_vector, if_neg h]
  simp only [vector_range_left, vector_range_right, Nat.zero_add]
  cases merge_sort_vector (S.take (S.length / 2)) <;>
    cases merge_sort_vector (S.drop (S.length / 2)) <;> rfl

theorem merge_sort_list_small (S : List α) (h : S.length ≤ 1) :
    merge_sort_list S = some S := by
  rw [merge_sort_list, if_pos h]

theorem merge_sort_list_split (S : List α) (h : ¬ S.length ≤ 1) :
    merge_sort_list S =
      (merge_sort_list (S.take (S.length / 2))).bind (fun L =>
        (merge_sort_list (S.drop (S.length / 2))).bind (fun R => merge_l L R)) := by
  have hle : S.length / 2 ≤ S.length := Nat.div_le_self _ _
  rw [merge_sort_list, if_neg h]
  simp only []
  split
  · next hw => rw [advance_drop S _ hle] at hw; cases hw
  · next it hw =>
    rw [advance_drop S _ hle] at hw
    cases hw
    simp only [list_range_left S _ hle, list_range_right]
    cases merge_sort_list (S.take (S.length / 2)) <;>
      cases merge_sort_list (S.drop (S.length / 2)) <;> rfl

theorem merge_sort_list_eq_vector (S : List α) : merge_sort_list S = merge_sort_vector S := by
  generalize hn : S.length = n
  induction n using Nat.strong_induction_on generalizing S with
  | _ n ih =>
    subst hn
    by_cases h : S.length ≤ 1
    · rw [merge_sort_list_small S h, merge_sort_vector_small S h]
    · rw [merge_sort_list_split S h, merge_sort_vector_split S h,
        ih _ (take_half_length_lt S h) _ rfl, ih _ (drop_half_length_lt S h) _ rfl]
      simp only [merge_l_eq_merge]

/-- The run of `merge_sort_vector` ends, and ends with a rearrangement of the
input, whatever the comparison is. -/
theorem merge_sort_vector_returns_perm (S : List α) :
    ∃ out, merge_sort_vector S = some out ∧ out.Perm S := by
  generalize hn : S.length = n
  induction n using Nat.strong_induction_on generalizing S with
  | _ n ih =>
    subst hn
    by_cases h : S.length ≤ 1
    · exact ⟨S, merge_sort_vector_small S h, List.Perm.refl _⟩
    · obtain ⟨L, hL, hLp⟩ := ih _ (take_half_length_lt S h) _ rfl
      obtain ⟨R, hR, hRp⟩ := ih _ (drop_half_length_lt S h) _ rfl
      refine ⟨List.merge L R (fun a b => decide (a ≤ b)), ?_, ?_⟩
      · rw [merge_sort_vector_split S h, hL, hR]
        simp [merge_eq]
      · refine (List.merge_perm_append _).trans ?_
        have := hLp.append hRp
        rwa [List.take_append_drop] at this

end MergeLemmas

/-! ### Sortedness, for a linear order -/

section OrderLemmas

variable [LinearOrder α]

/-- The scan of `find_least` over the positions `k + 1, …, k + m`. -/
theorem find_least_scan (v : List α) (k m : Nat) (hm : k + m < v.length) :
    ∃ j, (List.range' (k + 1) m).foldlM
          (fun least_index i => do
            let a ← v[i]?
            let b ← v[least_index]?
            pure (if a < b then i else least_index)) k = some j ∧
      k ≤ j ∧ j ≤ k + m ∧
      (∀ i, k ≤ i → i ≤ k + m → ∀ x y, v[j]? = some x → v[i]? = some y → x ≤ y) ∧
      (∀ i, k ≤ i → i < j → ∀ x y, v[j]? = some x → v[i]? = some y → x < y) := by
  induction m with
  | zero =>
    refine ⟨k, by simp, le_refl _, by omega, ?_, ?_⟩
    · intro i h1 h2 x y hx hy
      have : i = k := by omega
      subst this
      rw [hx] at hy
      cases hy
      exact le_refl _
    · intro i h1 h2
      omega
  | succ m ih =>
    obtain ⟨j, hj, hkj, hjm, hmin, hleft⟩ := ih (by omega)
    have hjlt : j < v.length := by omega
    have hnlt : k + 1 + m < v.length := by omega
    rw [List.range'_concat, List.foldlM_append, hj]
    simp only [Option.bind_eq_bind, Option.some_bind, List.foldlM_cons, List.foldlM_nil,
      Nat.one_mul, List.getElem?_eq_getElem hnlt, List.getElem?_eq_getElem hjlt, Option.pure_def,
      Option.bind_some]
    by_cases hlt : v[k + 1 + m] < v[j]
    · refine ⟨k + 1 + m, by simp [hlt], by omega, by omega, ?_, ?_⟩
      · intro i h1 h2 x y hx hy
        rw [List.getElem?_eq_getElem hnlt] at hx
        cases hx
        by_cases hi : i ≤ k + m
        · exact le_trans (le_of_lt hlt)
            (hmin i h1 hi _ _ (List.getElem?_eq_getElem hjlt) hy)
        · have : i = k + 1 + m := by omega
          subst this
          rw [List.getElem?_eq_getElem hnlt] at hy
          cases hy
          exact le_refl _
      · intro i h1 h2 x y hx hy
        rw [List.getElem?_eq_getElem hnlt] at hx
        cases hx
        exact lt_of_lt_of_le hlt
          (hmin i h1 (by omega) _ _ (List.getElem?_eq_getElem hjlt) hy)
    · refine ⟨j, by simp [hlt], hkj, by omega, ?_, hleft⟩
      intro i h1 h2 x y hx hy
      by_cases hi : i ≤ k + m
      · exact hmin i h1 hi x y hx hy
      · have : i = k + 1 + m := by omega
        subst this
        rw [List.getElem?_eq_getElem hnlt] at hy
        rw [List.getElem?_eq_getElem hjlt] at hx
        cases hx
        cases hy
        exact not_lt.mp hlt

/-- The inner loop returns the leftmost position of a least element of the
unsorted zone `k, …, SIZE - 1`. -/
theorem find_least_spec (v : List α) (k : Nat) (hk : k < v.length) :
    ∃ j, find_least v v.length k = some j ∧ k ≤ j ∧ j < v.length ∧
      (∀ i, k ≤ i → ∀ x y, v[j]? = some x → v[i]? = some y → x ≤ y) ∧
      (∀ i, k ≤ i → i < j → ∀ x y, v[j]? = some x → v[i]? = some y → x < y) := by
  obtain ⟨j, hj, hkj, hjm, hmin, hleft⟩ :=
    find_least_scan v k (v.length - (k + 1)) (by omega)
  refine ⟨j, hj, hkj, by omega, ?_, hleft⟩
  intro i h1 x y hx hy
  by_cases h2 : i < v.length
  · exact hmin i h1 (by omega) x y hx hy
  · rw [List.getElem?_eq_none (by omega)] at hy
    cases hy

/-- One round keeps the loop invariant: after it the first `k + 1` positions
hold elements that are below everything to their right. -/
theorem selection_step_spec (w : List α) (k : Nat) (hk : k < w.length)
    (hinv : ∀ i j x y, i < j → i < k → w[i]? = some x → w[j]? = some y → x ≤ y) :
    ∃ w', selection_step w.length w k = some w' ∧ w'.length = w.length ∧ w'.Perm w ∧
      (∀ i j x y, i < j → i < k + 1 → w'[i]? = some x → w'[j]? = some y → x ≤ y) := by
  obtain ⟨m, hfind, hkm, hmlt, hmin, -⟩ := find_least_spec w k hk
  obtain ⟨w', hswap, hlen, hperm, hget⟩ := swap_spec w m k hmlt hk
  refine ⟨w', by simp [selection_step, hfind, hswap], hlen, hperm, ?_⟩
  intro i j x y hij hik hx hy
  rw [hget] at hx hy
  by_cases hi : i = k
  · subst hi
    rw [if_pos rfl] at hx
    rw [if_neg (by omega)] at hy
    by_cases hjm : j = m
    · rw [if_pos hjm] at hy
      exact hmin i (le_refl _) x y hx hy
    · rw [if_neg hjm] at hy
      exact hmin j (by omega) x y hx hy
  · have hik' : i < k := by omega
    rw [if_neg hi, if_neg (by omega)] at hx
    by_cases hjk : j = k
    · rw [if_pos hjk] at hy
      exact hinv i m x y (by omega) hik' hx hy
    · rw [if_neg hjk] at hy
      by_cases hjm : j = m
      · rw [if_pos hjm] at hy
        exact hinv i k x y hik' hik' hx hy
      · rw [if_neg hjm] at hy
        exact hinv i j x y hij hik' hx hy

/-- The loop invariant of the outer loop: after `k` rounds the vector is a
rearrangement of the input in which each of the first `k` positions holds an
element that is below everything to its right. -/
theorem selection_rounds_spec (S : List α) (k : Nat) (hk : k ≤ S.length) :
    ∃ w, selection_rounds S k = some w ∧ w.length = S.length ∧ w.Perm S ∧
      (∀ i j x y, i < j → i < k → w[i]? = some x → w[j]? = some y → x ≤ y) := by
  induction k with
  | zero =>
    refine ⟨S, by simp [selection_rounds], rfl, List.Perm.refl _, ?_⟩
    intro i j x y _ hi
    omega
  | succ k ih =>
    obtain ⟨w, hw, hlen, hperm, hinv⟩ := ih (by omega)
    obtain ⟨w', hstep, hlen', hperm', hinv'⟩ := selection_step_spec w k (by omega) hinv
    refine ⟨w', ?_, hlen'.trans hlen, hperm'.trans hperm, hinv'⟩
    unfold selection_rounds at hw ⊢
    rw [List.range'_concat, List.foldlM_append, hw]
    rw [hlen] at hstep
    simpa using hstep

theorem selection_sort_eq_rounds (S : List α) :
    selection_sort S = selection_rounds S S.length := rfl

/-- The run of `selection_sort` ends, and ends with a sorted rearrangement of
the input. -/
theorem selection_sort_spec (S : List α) :
    ∃ out, selection_sort S = some out ∧ out.Sorted (· ≤ ·) ∧ out.Perm S := by
  obtain ⟨w, hw, hlen, hperm, hinv⟩ := selection_rounds_spec S S.length (le_refl _)
  refine ⟨w, hw, ?_, hperm⟩
  rw [List.Sorted, List.pairwise_iff_getElem]
  intro i j hi hj hij
  exact hinv i j _ _ hij (by omega) (List.getElem?_eq_getElem hi) (List.getElem?_eq_getElem hj)

/-- The run of `merge_sort_vector` ends, and ends with a sorted rearrangement
of the input. -/
theorem merge_sort_vector_spec (S : List α) :
    ∃ out, merge_sort_vector S = some out ∧ out.Sorted (· ≤ ·) ∧ out.Perm S := by
  generalize hn : S.length = n
  induction n using Nat.strong_induction_on generalizing S with
  | _ n ih =>
    subst hn
    by_cases h : S.length ≤ 1
    · refine ⟨S, merge_sort_vector_small S h, ?_, List.Perm.refl _⟩
      match S, h with
      | [], _ => exact List.sorted_nil
      | [x], _ => exact List.sorted_singleton x
    · obtain ⟨L, hL, hLs, hLp⟩ := ih _ (take_half_length_lt S h) _ rfl
      obtain ⟨R, hR, hRs, hRp⟩ := ih _ (drop_half_length_lt S h) _ rfl
      refine ⟨List.merge L R (fun a b => decide (a ≤ b)), ?_, hLs.merge hRs, ?_⟩
      · rw [merge_sort_vector_split S h, hL, hR]
        simp [merge_eq]
      · refine (List.merge_perm_append _).trans ?_
        have := hLp.append hRp
        rwa [List.take_append_drop] at this

/-- Two sorted rearrangements of one sequence are the same sequence. -/
theorem sorted_perm_unique {out out' S : List α} (h1 : out.Sorted (· ≤ ·)) (h2 : out.Perm S)
    (h1' : out'.Sorted (· ≤ ·)) (h2' : out'.Perm S) : out = out' :=
  List.eq_of_perm_of_sorted (h2.trans h2'.symm) h1 h1'

/-- On a linear order each of the three sorts returns the one sorted
rearrangement of its input. -/
theorem sorts_eq_of_sorted_perm {S out : List α} (hs : out.Sorted (· ≤ ·)) (hp : out.Perm S) :
    selection_sort S = some out ∧ merge_sort_vector S = some out ∧
      merge_sort_list S = some out := by
  obtain ⟨o1, h1, hs1, hp1⟩ := selection_sort_spec S
  obtain ⟨o2, h2, hs2, hp2⟩ := merge_sort_vector_spec S
  have e1 : o1 = out := sorted_perm_unique hs1 hp1 hs hp
  have e2 : o2 = out := sorted_perm_unique hs2 hp2 hs hp
  subst e1
  refine ⟨h1, ?_, ?_⟩
  · rw [h2, e2]
  · rw [merge_sort_list_eq_vector, h2, e2]

end OrderLemmas

/-! ### The reference merge, the halves and the depth of the recursion -/

section ReferenceLemmas

theorem vector_halves_eq (S : List α) :
    vector_halves S = (S.take (S.length / 2), S.drop (S.length / 2)) := by
  simp [vector_halves, vector_range_left, vector_range_right]

theorem list_halves_eq (S : List α) :
    list_halves S = some (S.take (S.length / 2), S.drop (S.length / 2)) := by
  have hle : S.length / 2 ≤ S.length := Nat.div_le_self _ _
  simp [list_halves, advance_drop S _ hle, list_range_left S _ hle, list_range_right]

theorem take_half_length (S : List α) : (S.take (S.length / 2)).length = S.length / 2 := by
  rw [List.length_take]; omega

theorem drop_half_length (S : List α) :
    (S.drop (S.length / 2)).length = (S.length + 1) / 2 := by
  rw [List.length_drop]; omega

theorem merge_sort_vector_depth_small (S : List α) (h : S.length ≤ 1) :
    merge_sort_vector_depth S = 0 := by
  rw [merge_sort_vector_depth, if_pos h]

theorem merge_sort_vector_depth_split (S : List α) (h : ¬ S.length ≤ 1) :
    merge_sort_vector_depth S =
      1 + max (merge_sort_vector_depth (S.take (S.length / 2)))
        (merge_sort_vector_depth (S.drop (S.length / 2))) := by
  rw [merge_sort_vector_depth, if_neg h]
  simp only [vector_range_left, vector_range_right, Nat.zero_add]

theorem merge_sort_list_depth_small (S : List α) (h : S.length ≤ 1) :
    merge_sort_list_depth S = 0 := by
  rw [merge_sort_list_depth, if_pos h]

theorem merge_sort_list_depth_split (S : List α) (h : ¬ S.length ≤ 1) :
    merge_sort_list_depth S =
      1 + max (merge_sort_list_depth (S.take (S.length / 2)))
        (merge_sort_list_depth (S.drop (S.length / 2))) := by
  have hle : S.length / 2 ≤ S.length := Nat.div_le_self _ _
  rw [merge_sort_list_depth, if_neg h]
  simp only []
  split
  · next hw => rw [advance_drop S _ hle] at hw; cases hw
  · next it hw =>
    rw [advance_drop S _ hle] at hw
    cases hw
    simp only [list_range_left S _ hle, list_range_right]

theorem merge_sort_list_depth_eq_vector (S : List α) :
    merge_sort_list_depth S = merge_sort_vector_depth S := by
  generalize hn : S.length = n
  induction n using Nat.strong_induction_on generalizing S with
  | _ n ih =>
    subst hn
    by_cases h : S.length ≤ 1
    · rw [merge_sort_list_depth_small S h, merge_sort_vector_depth_small S h]
    · rw [merge_sort_list_depth_split S h, merge_sort_vector_depth_split S h,
        ih _ (take_half_length_lt S h) _ rfl, ih _ (drop_half_length_lt S h) _ rfl]

/-- The depth of the recursion is at most the binary logarithm of the size,
rounded up: `2 ^ depth < 2 * size` for a non-empty input. -/
theorem merge_sort_vector_depth_bound (S : List α) (hS : 1 ≤ S.length) :
    2 ^ merge_sort_vector_depth S < 2 * S.length := by
  generalize hn : S.length = n at hS
  induction n using Nat.strong_induction_on generalizing S with
  | _ n ih =>
    subst hn
    by_cases h : S.length ≤ 1
    · rw [merge_sort_vector_depth_small S h]
      simp
      omega
    · rw [merge_sort_vector_depth_split S h]
      have hl := ih _ (take_half_length_lt S h) (S.take (S.length / 2)) rfl
        (by rw [take_half_length]; omega)
      have hr := ih _ (drop_half_length_lt S h) (S.drop (S.length / 2)) rfl
        (by rw [drop_half_length]; omega)
      rw [take_half_length] at hl
      rw [drop_half_length] at hr
      have key : ∀ d : Nat, 2 ^ d < 2 * ((S.length + 1) / 2) → 2 ^ d < S.length := by
        intro d hd
        cases d with
        | zero => simp; omega
        | succ d =>
          rw [pow_succ] at hd ⊢
          omega
      have hl' : 2 ^ merge_sort_vector_depth (S.take (S.length / 2)) < S.length := by omega
      have hr' := key _ hr
      rw [pow_add, pow_one]
      rcases max_choice (merge_sort_vector_depth (S.take (S.length / 2)))
        (merge_sort_vector_depth (S.drop (S.length / 2))) with hm | hm
      · rw [hm]; omega
      · rw [hm]; omega

end ReferenceLemmas

section ReferenceMergeLemmas

variable [LE α] [DecidableRel (α := α) (· ≤ ·)]

theorem reference_merge_nil_left (R : List α) : reference_merge [] R = R := by
  rw [reference_merge]

theorem reference_merge_nil_right (L : List α) : reference_merge L [] = L := by
  cases L <;> simp [reference_merge]

theorem reference_merge_cons_cons (x y : α) (L' R' : List α) :
    reference_merge (x :: L') (y :: R') =
      if x ≤ y then x :: reference_merge L' (y :: R') else y :: reference_merge (x :: L') R' := by
  rw [reference_merge]

theorem reference_merge_eq (L R : List α) :
    reference_merge L R = List.merge L R (fun a b => decide (a ≤ b)) := by
  induction L generalizing R with
  | nil => rw [reference_merge_nil_left, List.nil_merge]
  | cons x L ihL =>
    induction R with
    | nil => rw [reference_merge_nil_right, List.merge_right]
    | cons y R ihR =>
      rw [reference_merge_cons_cons, List.cons_merge_cons, ihL, ihR]
      simp

/-- The index loop of `merge` computes the reference merge. -/
theorem merge_eq_reference (L R : List α) : merge L R = some (reference_merge L R) := by
  rw [merge_eq, reference_merge_eq]

theorem merge_sort_vector_unfold_halves (S : List α) (h : ¬ S.length ≤ 1) :
    merge_sort_vector S =
      (merge_sort_vector (vector_halves S).1).bind (fun L =>
        (merge_sort_vector (vector_halves S).2).bind (fun R => merge L R)) := by
  rw [merge_sort_vector_split S h, vector_halves_eq]

theorem merge_sort_list_unfold_halves (S : List α) (h : ¬ S.length ≤ 1) :
    merge_sort_list S =
      (list_halves S).bind (fun halves =>
        (merge_sort_list halves.1).bind (fun L =>
          (merge_sort_list halves.2).bind (fun R => merge_l L R))) := by
  rw [merge_sort_list_split S h, list_halves_eq]
  rfl

end ReferenceMergeLemmas

/-! ### Bounds of the indices of `selection_sort`, for any comparison -/

section BoundsLemmas

variable [LT α] [DecidableRel (α := α) (· < ·)]

/-- The scan of `find_least` over the positions `k + 1, …, k + m` reads inside
the vector and ends on a position of the scanned zone. -/
theorem find_least_scan_bounds (v : List α) (k m : Nat) (hm : k + m < v.length) :
    ∃ j, (List.range' (k + 1) m).foldlM
          (fun least_index i => do
            let a ← v[i]?
            let b ← v[least_index]?
            pure (if a < b then i else least_index)) k = some j ∧
      k ≤ j ∧ j ≤ k + m := by
  induction m with
  | zero => exact ⟨k, by simp, le_refl _, by omega⟩
  | succ m ih =>
    obtain ⟨j, hj, hkj, hjm⟩ := ih (by omega)
    have hjlt : j < v.length := by omega
    have hnlt : k + 1 + m < v.length := by omega
    rw [List.range'_concat, List.foldlM_append, hj]
    simp only [Option.bind_eq_bind, Option.some_bind, List.foldlM_cons, List.foldlM_nil,
      Nat.one_mul, List.getElem?_eq_getElem hnlt, List.getElem?_eq_getElem hjlt, Option.pure_def,
      Option.bind_some]
    by_cases hlt : v[k + 1 + m] < v[j]
    · exact ⟨k + 1 + m, by simp [hlt], by omega, by omega⟩
    · exact ⟨j, by simp [hlt], hkj, by omega⟩

theorem find_least_bounds (v : List α) (k : Nat) (hk : k < v.length) :
    ∃ j, find_least v v.length k = some j ∧ k ≤ j ∧ j < v.length := by
  obtain ⟨j, hj, hkj, hjm⟩ := find_least_scan_bounds v k (v.length - (k + 1)) (by omega)
  exact ⟨j, hj, hkj, by omega⟩

theorem selection_step_returns (w : List α) (k : Nat) (hk : k < w.length) :
    ∃ w', selection_step w.length w k = some w' ∧ w'.length = w.length ∧ w'.Perm w := by
  obtain ⟨m, hfind, -, hmlt⟩ := find_least_bounds w k hk
  obtain ⟨w', hswap, hlen, hperm, -⟩ := swap_spec w m k hmlt hk
  exact ⟨w', by simp [selection_step, hfind, hswap], hlen, hperm⟩

theorem selection_rounds_returns (S : List α) (k : Nat) (hk : k ≤ S.length) :
    ∃ w, selection_rounds S k = some w ∧ w.length = S.length ∧ w.Perm S := by
  induction k with
  | zero => exact ⟨S, by simp [selection_rounds], rfl, List.Perm.refl _⟩
  | succ k ih =>
    obtain ⟨w, hw, hlen, hperm⟩ := ih (by omega)
    obtain ⟨w', hstep, hlen', hperm'⟩ := selection_step_returns w k (by omega)
    refine ⟨w', ?_, hlen'.trans hlen, hperm'.trans hperm⟩
    unfold selection_rounds at hw ⊢
    rw [List.range'_concat, List.foldlM_append, hw]
    rw [hlen] at hstep
    simpa using hstep

theorem selection_rounds_succ (S : List α) (k : Nat) :
    selection_rounds S (k + 1) =
      (selection_rounds S k).bind (fun w => selection_step S.length w k) := by
  unfold selection_rounds
  rw [List.range'_concat, List.foldlM_append]
  simp

end BoundsLemmas

/-! ### Stability, for a total preorder -/

section StabilityLemmas

variable [LE α] [DecidableRel (α := α) (· ≤ ·)] [IsTotal α (· ≤ ·)] [IsTrans α (· ≤ ·)]

/-- Merging keeps, for every `x`, the elements that compare equal to `x` in
the order "those of `L`, then those of `R`", `L` being sorted. -/
theorem merge_filter_equiv (x : α) (L R : List α) (hL : L.Sorted (· ≤ ·)) :
    (List.merge L R (fun a b => decide (a ≤ b))).filter (fun y => decide (x ≤ y ∧ y ≤ x)) =
      L.filter (fun y => decide (x ≤ y ∧ y ≤ x)) ++
        R.filter (fun y => decide (x ≤ y ∧ y ≤ x)) := by
  induction L generalizing R with
  | nil => simp [List.nil_merge]
  | cons a L ihL =>
    induction R with
    | nil => simp [List.merge_right]
    | cons b R ihR =>
      rw [List.cons_merge_cons]
      by_cases hab : a ≤ b
      · simp only [hab, decide_True, if_true]
        rw [List.filter_cons, ihL _ hL.of_cons, List.filter_cons (x := a)]
        split <;> simp
      · simp only [hab, decide_False, Bool.false_eq_true, if_false]
        rw [List.filter_cons, ihR, List.filter_cons (x := b)]
        by_cases hb : x ≤ b ∧ b ≤ x
        · have hnil : (a :: L).filter (fun y => decide (x ≤ y ∧ y ≤ x)) = [] := by
            rw [List.filter_eq_nil_iff]
            intro y hy hp
            have hp' : x ≤ y ∧ y ≤ x := by simpa using hp
            have hay : a ≤ y := by
              rcases List.mem_cons.1 hy with h | h
              · subst h
                exact (IsTotal.total y y).elim id id
              · exact List.rel_of_sorted_cons hL y h
            exact hab (IsTrans.trans _ _ _ hay (IsTrans.trans _ _ _ hp'.2 hb.1))
          simp only [hb, and_self, decide_True, if_true, hnil, List.nil_append]
        · simp [hb]

/-- Over a total preorder the run of `merge_sort_vector` ends with a sorted
rearrangement of the input in which elements that compare equal keep their
order. -/
theorem merge_sort_vector_stable_spec (S : List α) :
    ∃ out, merge_sort_vector S = some out ∧ out.Sorted (· ≤ ·) ∧ out.Perm S ∧
      stable_output S out := by
  generalize hn : S.length = n
  induction n using Nat.strong_induction_on generalizing S with
  | _ n ih =>
    subst hn
    by_cases h : S.length ≤ 1
    · refine ⟨S, merge_sort_vector_small S h, ?_, List.Perm.refl _, fun x => rfl⟩
      match S, h with
      | [], _ => exact List.sorted_nil
      | [x], _ => exact List.sorted_singleton x
    · obtain ⟨L, hL, hLs, hLp, hLst⟩ := ih _ (take_half_length_lt S h) _ rfl
      obtain ⟨R, hR, hRs, hRp, hRst⟩ := ih _ (drop_half_length_lt S h) _ rfl
      refine ⟨List.merge L R (fun a b => decide (a ≤ b)), ?_, hLs.merge hRs, ?_, ?_⟩
      · rw [merge_sort_vector_split S h, hL, hR]
        simp [merge_eq]
      · refine (List.merge_perm_append _).trans ?_
        have := hLp.append hRp
        rwa [List.take_append_drop] at this
      · intro x
        rw [merge_filter_equiv x L R hLs, hLst x, hRst x, ← List.filter_append,
          List.take_append_drop]

end StabilityLemmas

section StablePairLemmas

variable [LE α] [DecidableRel (α := α) (· ≤ ·)] [IsTotal α (· ≤ ·)]

/-- A stable run keeps every pair of elements that compare equal in its
order: if `a` stands before `b` in the input, it does so in the output. -/
theorem stable_output_pair {S out : List α} (hst : stable_output S out) {a b : α}
    (hab : a ≤ b) (hba : b ≤ a) (h : List.Sublist [a, b] S) : List.Sublist [a, b] out := by
  have haa : a ≤ a := (IsTotal.total a a).elim id id
  have h1 := h.filter (fun y => decide (a ≤ y ∧ y ≤ a))
  rw [← hst a] at h1
  have h2 : [a, b].filter (fun y => decide (a ≤ y ∧ y ≤ a)) = [a, b] := by
    simp [List.filter_cons, haa, hab, hba]
  rw [h2] at h1
  exact h1.trans (List.filter_sublist _)

end StablePairLemmas

section LinearStabilityLemmas

variable [LinearOrder α]

/-- Over a linear order elements that compare equal are the same element, so
every rearrangement is a stable one. -/
theorem stable_output_of_perm {S out : List α} (hp : out.Perm S) : stable_output S out := by
  intro x
  have hfun : (fun y : α => decide (x ≤ y ∧ y ≤ x)) = (fun y => decide (y = x)) := by
    funext y
    congr 1
    exact propext ⟨fun h => le_antisymm h.2 h.1, fun h => by subst h; exact ⟨le_refl _, le_refl _⟩⟩
  rw [hfun, List.filter_eq, List.filter_eq, hp.count_eq]

end LinearStabilityLemmas

/-! ### The cursors of `merge_l` -/

section CursorLemmas

theorem merge_l_cursor_invariant_start (L R : List α) :
    merge_l_cursor_invariant L R (merge_l_start L R) := by
  simp [merge_l_cursor_invariant, merge_l_start, li_it_position, ri_it_position]

variable [LE α] [DecidableRel (α := α) (· ≤ ·)]

/-- A step from a state with the cursor invariant makes no invalid access and
ends in a state with the cursor invariant. -/
theorem merge_l_cursor_invariant_step (L R : List α) (st : MergeLState α)
    (h : merge_l_cursor_invariant L R st) :
    ∃ st', merge_l_step L R st = some st' ∧ merge_l_cursor_invariant L R st' := by
  obtain ⟨phase, li, ri, li_it, ri_it, S, la, ra⟩ := st
  cases phase with
  | main_loop =>
    simp only [merge_l_cursor_invariant, li_it_position, ri_it_position] at h
    obtain ⟨h1, h2, h3, h4, h5, h6, -, -⟩ := h
    subst h1 h2 h5 h6
    by_cases hg : la < L.length ∧ ra < R.length
    · by_cases hxy : L[la] ≤ R[ra]
      · refine ⟨_, by simp [merge_l_step, hg, deref_drop, advance_drop_one, hxy]; rfl, ?_⟩
        simp only [merge_l_cursor_invariant, li_it_position, ri_it_position]
        refine ⟨?_, ?_, ?_, ?_, ?_, ?_, ?_, ?_⟩ <;> first | trivial | assumption | omega
      · refine ⟨_, by simp [merge_l_step, hg, deref_drop, advance_drop_one, hxy]; rfl, ?_⟩
        simp only [merge_l_cursor_invariant, li_it_position, ri_it_position]
        refine ⟨?_, ?_, ?_, ?_, ?_, ?_, ?_, ?_⟩ <;> first | trivial | assumption | omega
    · refine ⟨_, by simp only [merge_l_step, if_neg hg]; rfl, ?_⟩
      simp only [merge_l_cursor_invariant, li_it_position, ri_it_position]
      refine ⟨?_, ?_, ?_, ?_, ?_, ?_, ?_, ?_⟩ <;> trivial
  | stragglers_L i =>
    simp only [merge_l_cursor_invariant, li_it_position, ri_it_position] at h
    obtain ⟨h1, h2, h3, h4, h5, h6, h7, h8⟩ := h
    subst h1 h2 h5 h6
    by_cases hg : la < L.length
    · refine ⟨_, by simp [merge_l_step, hg, deref_drop, advance_drop_one]; rfl, ?_⟩
      simp only [merge_l_cursor_invariant, li_it_position, ri_it_position]
      refine ⟨?_, ?_, ?_, ?_, ?_, ?_, ?_, ?_⟩ <;> first | trivial | assumption | omega
    · have hi : la = L.length := by omega
      refine ⟨_, by simp only [merge_l_step, if_neg hg]; rfl, ?_⟩
      simp only [merge_l_cursor_invariant, li_it_position, ri_it_position]
      refine ⟨?_, ?_, ?_, ?_, ?_, ?_, ?_, ?_⟩ <;> first | trivial | assumption | omega | simp [hi]
  | stragglers_R i =>
    simp only [merge_l_cursor_invariant, li_it_position, ri_it_position] at h
    obtain ⟨h1, h2, h3, h4, h5, h6, h7, h8⟩ := h
    subst h1 h2 h6
    by_cases hg : ra < R.length
    · refine ⟨_, by simp [merge_l_step, hg, deref_drop, advance_drop_one]; rfl, ?_⟩
      simp only [merge_l_cursor_invariant, li_it_position, ri_it_position]
      refine ⟨?_, ?_, ?_, ?_, ?_, ?_, ?_, ?_⟩ <;> first | trivial | assumption | omega | simp
    · have hi : ra = R.length := by omega
      refine ⟨_, by simp only [merge_l_step, if_neg hg]; rfl, ?_⟩
      simp only [merge_l_cursor_invariant, li_it_position, ri_it_position]
      refine ⟨?_, ?_, ?_, ?_, ?_, ?_, ?_, ?_⟩ <;> first | trivial | assumption | omega | simp [hi]
  | returned => exact ⟨_, rfl, h⟩

theorem merge_l_cursor_invariant_steps (L R : List α) (n : Nat) (st : MergeLState α)
    (h : merge_l_cursor_invariant L R st) :
    ∃ st', merge_l_steps L R n st = some st' ∧ merge_l_cursor_invariant L R st' := by
  induction n generalizing st with
  | zero => exact ⟨st, rfl, h⟩
  | succ n ih =>
    obtain ⟨st1, hstep, h1⟩ := merge_l_cursor_invariant_step L R st h
    obtain ⟨st2, hsteps, h2⟩ := ih st1 h1
    exact ⟨st2, by simp [merge_l_steps, hstep, hsteps], h2⟩

/-- Every state of a run of `merge_l` has the cursor invariant. -/
theorem merge_l_cursor_invariant_run (L R : List α) (n : Nat) :
    ∃ st, merge_l_run L R n = some st ∧ merge_l_cursor_invariant L R st :=
  merge_l_cursor_invariant_steps L R n _ (merge_l_cursor_invariant_start L R)

theorem merge_l_steps_add (L R : List α) (m n : Nat) (st : MergeLState α) :
    merge_l_steps L R (m + n) st = (merge_l_steps L R m st).bind (merge_l_steps L R n) := by
  induction m generalizing st with
  | zero => simp [merge_l_steps]
  | succ m ih =>
    rw [Nat.succ_add]
    simp only [merge_l_steps]
    cases merge_l_step L R st with
    | none => rfl
    | some st1 => simpa using ih st1

/-- The straggler loop of `R`, from its test with the counter `i` to the
`return`: `|R| - i` rounds and the last test. -/
theorem merge_l_steps_stragglers_R (L R : List α) (st : MergeLState α) (i : Nat)
    (hphase : st.phase = MergeLPhase.stragglers_R i) (hit : st.ri_it = R.drop i)
    (hi : i ≤ R.length) :
    ∃ st', merge_l_steps L R (R.length - i + 1) st = some st' ∧
      st'.phase = MergeLPhase.returned ∧ st'.S = st.S ++ R.drop i := by
  generalize hd : R.length - i = d
  induction d generalizing st i with
  | zero =>
    obtain ⟨phase, li, ri, li_it, ri_it, S, la, ra⟩ := st
    simp only at hphase hit
    subst hphase hit
    have hg : ¬ i < R.length := by omega
    refine ⟨{ phase := MergeLPhase.returned, li := li, ri := ri, li_it := li_it,
              ri_it := R.drop i, S := S, li_advances := la, ri_advances := ra },
      by simp [merge_l_steps, merge_l_step, hg], rfl, ?_⟩
    simp [List.drop_eq_nil_of_le (show R.length ≤ i by omega)]
  | succ d ih =>
    obtain ⟨phase, li, ri, li_it, ri_it, S, la, ra⟩ := st
    simp only at hphase hit
    subst hphase hit
    have hg : i < R.length := by omega
    obtain ⟨st', hst', hph, hS⟩ := ih
      { phase := MergeLPhase.stragglers_R (i + 1), li := li, ri := ri, li_it := li_it,
        ri_it := R.drop (i + 1), S := S ++ [R[i]], li_advances := la, ri_advances := ra + 1 }
      (i + 1) rfl rfl (by omega) (by omega)
    refine ⟨st', ?_, hph, ?_⟩
    · rw [merge_l_steps]
      simp only [merge_l_step, if_pos hg, deref_drop R i hg, advance_drop_one R i hg,
        Option.some_bind]
      exact hst'
    · rw [hS, List.drop_eq_getElem_cons hg]
      simp

/-- The straggler loop of `L`, from its test with the counter `i` to the first
test of the straggler loop of `R`. -/
theorem merge_l_steps_stragglers_L (L R : List α) (st : MergeLState α) (i : Nat)
    (hphase : st.phase = MergeLPhase.stragglers_L i) (hit : st.li_it = L.drop i)
    (hi : i ≤ L.length) :
    ∃ st', merge_l_steps L R (L.length - i + 1) st = some st' ∧
      st'.phase = MergeLPhase.stragglers_R st.ri ∧ st'.ri_it = st.ri_it ∧
      st'.S = st.S ++ L.drop i := by
  generalize hd : L.length - i = d
  induction d generalizing st i with
  | zero =>
    obtain ⟨phase, li, ri, li_it, ri_it, S, la, ra⟩ := st
    simp only at hphase hit
    subst hphase hit
    have hg : ¬ i < L.length := by omega
    refine ⟨{ phase := MergeLPhase.stragglers_R ri, li := li, ri := ri, li_it := L.drop i,
              ri_it := ri_it, S := S, li_advances := la, ri_advances := ra },
      by simp [merge_l_steps, merge_l_step, hg], rfl, rfl, ?_⟩
    simp [List.drop_eq_nil_of_le (show L.length ≤ i by omega)]
  | succ d ih =>
    obtain ⟨phase, li, ri, li_it, ri_it, S, la, ra⟩ := st
    simp only at hphase hit
    subst hphase hit
    have hg : i < L.length := by omega
    obtain ⟨st', hst', hph, hrit, hS⟩ := ih
      { phase := MergeLPhase.stragglers_L (i + 1), li := li, ri := ri,
        li_it := L.drop (i + 1), ri_it := ri_it, S := S ++ [L[i]], li_advances := la + 1,
        ri_advances := ra }
      (i + 1) rfl rfl (by omega) (by omega)
    refine ⟨st', ?_, hph, hrit, ?_⟩
    · rw [merge_l_steps]
      simp only [merge_l_step, if_pos hg, deref_drop L i hg, advance_drop_one L i hg,
        Option.some_bind]
      exact hst'
    · rw [hS, List.drop_eq_getElem_cons hg]
      simp

/-- The main loop, from one of its tests to the first test of the straggler
loop of `L`: one step for each round and one for the last test. -/
theorem merge_l_steps_main (L R : List α) (st : MergeLState α)
    (hphase : st.phase = MergeLPhase.main_loop) (hl : st.li_it = L.drop st.li)
    (hr : st.ri_it = R.drop st.ri) :
    ∃ st', merge_l_steps L R ((st'.li - st.li) + (st'.ri - st.ri) + 1) st = some st' ∧
      st'.phase = MergeLPhase.stragglers_L st'.li ∧
      st'.li_it = L.drop st'.li ∧ st'.ri_it = R.drop st'.ri ∧
      st.li ≤ st'.li ∧ st.ri ≤ st'.ri ∧
      st'.S ++ (L.drop st'.li ++ R.drop st'.ri) =
        st.S ++ List.merge (L.drop st.li) (R.drop st.ri) (fun a b => decide (a ≤ b)) := by
  generalize hm : (L.length - st.li) + (R.length - st.ri) = m
  induction m using Nat.strong_induction_on generalizing st with
  | _ m ih =>
    obtain ⟨phase, li, ri, li_it, ri_it, S, la, ra⟩ := st
    simp only at hphase hl hr hm
    subst hphase hl hr
    by_cases hg : li < L.length ∧ ri < R.length
    · by_cases hxy : L[li] ≤ R[ri]
      · have hgl : li < L.length := hg.1
        obtain ⟨st', hst', hph, hlit, hrit, h1, h2, hS⟩ :=
          ih ((L.length - (li + 1)) + (R.length - ri)) (by omega)
            { phase := MergeLPhase.main_loop, li := li + 1, ri := ri,
              li_it := L.drop (li + 1), ri_it := R.drop ri, S := S ++ [L[li]],
              li_advances := la + 1, ri_advances := ra }
            rfl rfl rfl rfl
        simp only at hst' h1 h2 hS
        refine ⟨st', ?_, hph, hlit, hrit, by simp only; omega, h2, ?_⟩
        · have hn : (st'.li - li) + (st'.ri - ri) + 1 =
              ((st'.li - (li + 1)) + (st'.ri - ri) + 1) + 1 := by omega
          simp only [hn]
          rw [merge_l_steps]
          simp only [merge_l_step, if_pos hg, deref_drop L li hg.1, deref_drop R ri hg.2,
            if_pos hxy, advance_drop_one L li hg.1, Option.some_bind]
          exact hst'
        · rw [hS, List.drop_eq_getElem_cons hg.1, List.drop_eq_getElem_cons hg.2,
            List.cons_merge_cons]
          simp [hxy]
      · have hgr : ri < R.length := hg.2
        obtain ⟨st', hst', hph, hlit, hrit, h1, h2, hS⟩ :=
          ih ((L.length - li) + (R.length - (ri + 1))) (by omega)
            { phase := MergeLPhase.main_loop, li := li, ri := ri + 1, li_it := L.drop li,
              ri_it := R.drop (ri + 1), S := S ++ [R[ri]], li_advances := la,
              ri_advances := ra + 1 }
            rfl rfl rfl rfl
        simp only at hst' h1 h2 hS
        refine ⟨st', ?_, hph, hlit, hrit, h1, by simp only; omega, ?_⟩
        · have hn : (st'.li - li) + (st'.ri - ri) + 1 =
              ((st'.li - li) + (st'.ri - (ri + 1)) + 1) + 1 := by omega
          simp only [hn]
          rw [merge_l_steps]
          simp only [merge_l_step, if_pos hg, deref_drop L li hg.1, deref_drop R ri hg.2,
            if_neg hxy, advance_drop_one R ri hg.2, Option.some_bind]
          exact hst'
        · rw [hS, List.drop_eq_getElem_cons hg.1, List.drop_eq_getElem_cons hg.2,
            List.cons_merge_cons]
          simp [hxy]
    · refine ⟨{ phase := MergeLPhase.stragglers_L li, li := li, ri := ri, li_it := L.drop li,
                ri_it := R.drop ri, S := S, li_advances := la, ri_advances := ra },
        by simp [merge_l_steps, merge_l_step, hg], rfl, rfl, rfl, le_refl _, le_refl _, ?_⟩
      by_cases hl : li < L.length
      · have hr : R.length ≤ ri := by
          by_contra hc
          exact hg ⟨hl, by omega⟩
        simp [List.drop_eq_nil_of_le hr]
      · have hl' : L.length ≤ li := by omega
        simp [List.drop_eq_nil_of_le hl']

/-- The run of `merge_l(L, R)` reaches its `return` after `|L| + |R| + 3`
steps, and the list `S` it holds then is what `merge_l` returns. -/
theorem merge_l_run_returns (L R : List α) :
    ∃ st, merge_l_run L R (L.length + R.length + 3) = some st ∧
      st.phase = MergeLPhase.returned ∧ merge_l L R = some st.S := by
  obtain ⟨st1, h1, hph1, hlit1, hrit1, -, -, hS1⟩ :=
    merge_l_steps_main L R (merge_l_start L R) rfl rfl rfl
  obtain ⟨hinv1wit, hinv1run, hinv1⟩ :=
    merge_l_cursor_invariant_steps L R ((st1.li - 0) + (st1.ri - 0) + 1) (merge_l_start L R)
      (merge_l_cursor_invariant_start L R)
  simp only [merge_l_start] at h1 hS1
  simp only [merge_l_start] at hinv1run
  rw [h1] at hinv1run
  cases hinv1run
  have hb1 : st1.li ≤ L.length ∧ st1.ri ≤ R.length := by
    have := hinv1
    simp only [merge_l_cursor_invariant, li_it_position, ri_it_position, hph1] at this
    exact ⟨this.2.2.1, this.2.2.2.1⟩
  obtain ⟨st2, h2, hph2, hrit2, hS2⟩ :=
    merge_l_steps_stragglers_L L R st1 st1.li hph1 hlit1 hb1.1
  obtain ⟨st3, h3, hph3, hS3⟩ :=
    merge_l_steps_stragglers_R L R st2 st1.ri hph2 (hrit2.trans hrit1) hb1.2
  refine ⟨st3, ?_, hph3, ?_⟩
  · have hn : L.length + R.length + 3 =
        ((st1.li - 0) + (st1.ri - 0) + 1) + ((L.length - st1.li + 1) + (R.length - st1.ri + 1)) := by
      omega
    unfold merge_l_run
    simp only [merge_l_start]
    rw [hn, merge_l_steps_add, h1, Option.some_bind, merge_l_steps_add, h2, Option.some_bind, h3]
  · rw [merge_l_eq, hS3, hS2]
    simp only [List.nil_append, List.drop_zero] at hS1
    rw [← hS1, List.append_assoc]

end CursorLemmas

/-! ### Comparisons of strings -/

section StringLemmas

theorem string_lt_of_toList {a b : String} (h : a.toList < b.toList) : a < b :=
  String.lt_iff_toList_lt.2 h

theorem string_not_lt_of_toList {a b : String} (h : ¬ a.toList < b.toList) : ¬ a < b :=
  fun hab => h (String.lt_iff_toList_lt.1 hab)

theorem string_le_of_toList {a b : String} (h : a.toList ≤ b.toList) : a ≤ b :=
  String.le_iff_toList_le.2 h

theorem string_not_le_of_toList {a b : String} (h : ¬ a.toList ≤ b.toList) : ¬ a ≤ b :=
  fun hab => h (String.le_iff_toList_le.1 hab)

end StringLemmas

/-! ## The claims -/

section Claims

/-- C1: for every input sequence `S`, `selection_sort(S)`,
`merge_sort_vector(S)` and `merge_sort_list(S)` each end with the very
sequence that `builtin_sort(S)` produces, the library sort delivering a
non-decreasing rearrangement of its input; hence every `std::equal` assertion
of a round of the timing harness holds, with or without the selection sort. -/
theorem sorts_agree_with_builtin_sort [LinearOrder α] (sort : List α → List α) (S : List α)
    (hsorted : (builtin_sort sort S).Sorted (· ≤ ·)) (hperm : (builtin_sort sort S).Perm S) :
    selection_sort S = some (builtin_sort sort S) ∧
      merge_sort_vector S = some (builtin_sort sort S) ∧
      merge_sort_list S = some (builtin_sort sort S) ∧
      ∀ do_selection_sort : Bool, harness_round sort do_selection_sort S = some true := by
  obtain ⟨h1, h2, h3⟩ := sorts_eq_of_sorted_perm hsorted hperm
  refine ⟨h1, h2, h3, ?_⟩
  intro b
  cases b <;> simp [harness_round, h1, h2, h3, std_equal_self]

/-- Witness of C1: the words `pear, apple, mango`, with insertion sort standing
in for the library sort. -/
theorem sorts_agree_with_builtin_sort_witness :
    ((builtin_sort (List.insertionSort (· ≤ ·)) ["pear", "apple", "mango"]).Sorted (· ≤ ·) ∧
      (builtin_sort (List.insertionSort (· ≤ ·)) ["pear", "apple", "mango"]).Perm
        ["pear", "apple", "mango"]) ∧
    (selection_sort ["pear", "apple", "mango"] =
        some (builtin_sort (List.insertionSort (· ≤ ·)) ["pear", "apple", "mango"]) ∧
      merge_sort_vector ["pear", "apple", "mango"] =
        some (builtin_sort (List.insertionSort (· ≤ ·)) ["pear", "apple", "mango"]) ∧
      merge_sort_list ["pear", "apple", "mango"] =
        some (builtin_sort (List.insertionSort (· ≤ ·)) ["pear", "apple", "mango"]) ∧
      ∀ do_selection_sort : Bool,
        harness_round (List.insertionSort (· ≤ ·)) do_selection_sort
          ["pear", "apple", "mango"] = some true) := by
  refine ⟨⟨List.sorted_insertionSort _ _, List.perm_insertionSort _ _⟩, ?_⟩
  convert sorts_agree_with_builtin_sort (List.insertionSort (· ≤ ·)) ["pear", "apple", "mango"]
    (List.sorted_insertionSort _ _) (List.perm_insertionSort _ _)

/-- C2: for every input vector `S`, `merge_sort_vector(S)` returns a vector in
non-decreasing order: for all positions `i < j` of the output,
`output[i] <= output[j]`. -/
theorem merge_sort_vector_nondecreasing [LinearOrder α] (S : List α) :
    ∃ output, merge_sort_vector S = some output ∧
      ∀ (i j : Nat) (hj : j < output.length) (hij : i < j), output[i] ≤ output[j] := by
  obtain ⟨out, h, hs, -⟩ := merge_sort_vector_spec S
  refine ⟨out, h, ?_⟩
  intro i j hj hij
  exact (List.pairwise_iff_getElem.1 hs) i j (by omega) hj hij

/-- C3: for every input vector `S`, `merge_sort_vector(S)` returns a
permutation of `S`: every element occurs in the output as often as in `S`,
and the output has the length of `S`. -/
theorem merge_sort_vector_permutation [LE α] [DecidableRel (α := α) (· ≤ ·)] [DecidableEq α]
    (S : List α) :
    ∃ output, merge_sort_vector S = some output ∧ output.Perm S ∧
      (∀ x, output.count x = S.count x) ∧ output.length = S.length := by
  obtain ⟨out, h, hp⟩ := merge_sort_vector_returns_perm S
  exact ⟨out, h, hp, fun x => hp.count_eq x, hp.length_eq⟩

/-- C4: for every input vector `S` of length `n`, `selection_sort(S)` leaves
the vector, still of length `n`, in non-decreasing order: for all positions
`i < j < n`, `S[i] <= S[j]`. -/
theorem selection_sort_nondecreasing [LinearOrder α] (S : List α) :
    ∃ output, selection_sort S = some output ∧ output.length = S.length ∧
      ∀ (i j : Nat) (hj : j < output.length) (hij : i < j), output[i] ≤ output[j] := by
  obtain ⟨out, h, hs, hp⟩ := selection_sort_spec S
  refine ⟨out, h, hp.length_eq, ?_⟩
  intro i j hj hij
  exact (List.pairwise_iff_getElem.1 hs) i j (by omega) hj hij

/-- C5: for every input vector `S`, the content of the vector after
`selection_sort(S)` is a permutation of its content before the call: every
element occurs as often as before, and the length is unchanged. -/
theorem selection_sort_permutation [LinearOrder α] (S : List α) :
    ∃ output, selection_sort S = some output ∧ output.Perm S ∧
      (∀ x, output.count x = S.count x) ∧ output.length = S.length := by
  obtain ⟨out, h, -, hp⟩ := selection_sort_spec S
  exact ⟨out, h, hp, fun x => hp.count_eq x, hp.length_eq⟩

/-- C6: for every sequence `S`, `merge_sort_list` on the linked list holding
`S` and `merge_sort_vector` on the vector holding `S` both return, and return
the same sequence of elements. -/
theorem merge_sort_list_matches_vector [LE α] [DecidableRel (α := α) (· ≤ ·)] (S : List α) :
    ∃ output, merge_sort_list S = some output ∧ merge_sort_vector S = some output := by
  obtain ⟨out, h, -⟩ := merge_sort_vector_returns_perm S
  exact ⟨out, by rw [merge_sort_list_eq_vector, h], h⟩

/-- C7: idempotence.  On every sequence `S` that is already in non-decreasing
order, `selection_sort`, `merge_sort_vector` and `merge_sort_list` each return
`S` itself; so a sort applied to the output of a sort returns that output. -/
theorem sorts_fix_sorted_input [LinearOrder α] (S : List α) (hS : S.Sorted (· ≤ ·)) :
    (selection_sort S = some S ∧ merge_sort_vector S = some S ∧ merge_sort_list S = some S) ∧
      ∀ T output : List α,
        (selection_sort T = some output → selection_sort output = some output) ∧
        (merge_sort_vector T = some output → merge_sort_vector output = some output) ∧
        (merge_sort_list T = some output → merge_sort_list output = some output) := by
  refine ⟨sorts_eq_of_sorted_perm hS (List.Perm.refl S), ?_⟩
  intro T output
  refine ⟨fun h => ?_, fun h => ?_, fun h => ?_⟩
  · obtain ⟨o, ho, hs, -⟩ := selection_sort_spec T
    rw [ho] at h
    cases h
    exact (sorts_eq_of_sorted_perm hs (List.Perm.refl _)).1
  · obtain ⟨o, ho, hs, -⟩ := merge_sort_vector_spec T
    rw [ho] at h
    cases h
    exact (sorts_eq_of_sorted_perm hs (List.Perm.refl _)).2.1
  · obtain ⟨o, ho, hs, -⟩ := merge_sort_vector_spec T
    rw [merge_sort_list_eq_vector, ho] at h
    cases h
    exact (sorts_eq_of_sorted_perm hs (List.Perm.refl _)).2.2

/-- Witness of C7: the sorted words `apple, mango, mango, pear`. -/
theorem sorts_fix_sorted_input_witness :
    (["apple", "mango", "mango", "pear"] : List String).Sorted (· ≤ ·) ∧
      (selection_sort ["apple", "mango", "mango", "pear"] =
          some ["apple", "mango", "mango", "pear"] ∧
        merge_sort_vector ["apple", "mango", "mango", "pear"] =
          some ["apple", "mango", "mango", "pear"] ∧
        merge_sort_list ["apple", "mango", "mango", "pear"] =
          some ["apple", "mango", "mango", "pear"]) := by
  have h1 : ("apple" : String) ≤ "mango" := string_le_of_toList (by decide)
  have h2 : ("apple" : String) ≤ "pear" := string_le_of_toList (by decide)
  have h3 : ("mango" : String) ≤ "pear" := string_le_of_toList (by decide)
  have hS : (["apple", "mango", "mango", "pear"] : List String).Sorted (· ≤ ·) := by
    simp [h1, h2, h3, -String.lt_iff_toList_lt, -String.le_iff_toList_le]
  refine ⟨hS, ?_⟩
  convert (sorts_fix_sorted_input ["apple", "mango", "mango", "pear"] hS).1

/-- C8: boundary.  On the empty sequence `selection_sort`, `merge_sort_vector`
and `merge_sort_list` each give the empty sequence, on a one-element sequence
`[x]` each gives `[x]`, and on every input of length at most 1 the two merge
sorts return the input as it is, making no call of `merge` or `merge_l`. -/
theorem sorts_boundary_cases [LT α] [DecidableRel (α := α) (· < ·)] [LE α]
    [DecidableRel (α := α) (· ≤ ·)] :
    (selection_sort ([] : List α) = some [] ∧ merge_sort_vector ([] : List α) = some [] ∧
      merge_sort_list ([] : List α) = some []) ∧
    (∀ x : α, selection_sort [x] = some [x] ∧ merge_sort_vector [x] = some [x] ∧
      merge_sort_list [x] = some [x]) ∧
    (∀ S : List α, S.length ≤ 1 →
      merge_sort_vector S = some S ∧ merge_sort_vector_calls S = 0 ∧
      merge_sort_list S = some S ∧ merge_sort_list_calls S = 0) := by
  refine ⟨⟨?_, ?_, ?_⟩, fun x => ⟨?_, ?_, ?_⟩, fun S h => ⟨?_, ?_, ?_, ?_⟩⟩
  · simp [selection_sort]
  · exact merge_sort_vector_small [] (by simp)
  · exact merge_sort_list_small [] (by simp)
  · simp [selection_sort, selection_step, find_least, swap]
  · exact merge_sort_vector_small [x] (by simp)
  · exact merge_sort_list_small [x] (by simp)
  · exact merge_sort_vector_small S h
  · exact merge_sort_vector_calls_small S h
  · exact merge_sort_list_small S h
  · exact merge_sort_list_calls_small S h

/-- C9: on the words `pear, apple, mango` each of `selection_sort`,
`merge_sort_vector`, `merge_sort_list` and `builtin_sort` (the library sort
delivering a non-decreasing rearrangement of these words) produces exactly
`apple, mango, pear`. -/
theorem example_pear_apple_mango (sort : List String → List String)
    (hsorted : (builtin_sort sort ["pear", "apple", "mango"]).Sorted (· ≤ ·))
    (hperm : (builtin_sort sort ["pear", "apple", "mango"]).Perm ["pear", "apple", "mango"]) :
    selection_sort ["pear", "apple", "mango"] = some ["apple", "mango", "pear"] ∧
      merge_sort_vector ["pear", "apple", "mango"] = some ["apple", "mango", "pear"] ∧
      merge_sort_list ["pear", "apple", "mango"] = some ["apple", "mango", "pear"] ∧
      builtin_sort sort ["pear", "apple", "mango"] = ["apple", "mango", "pear"] := by
  have l1 : ("apple" : String) < "pear" := string_lt_of_toList (by decide)
  have l2 : ¬ ("mango" : String) < "apple" := string_not_lt_of_toList (by decide)
  have l3 : ("mango" : String) < "pear" := string_lt_of_toList (by decide)
  have h1 : ("apple" : String) ≤ "mango" := string_le_of_toList (by decide)
  have h2 : ¬ ("pear" : String) ≤ "apple" := string_not_le_of_toList (by decide)
  have h3 : ¬ ("pear" : String) ≤ "mango" := string_not_le_of_toList (by decide)
  have h4 : ("apple" : String) ≤ "pear" := string_le_of_toList (by decide)
  have h5 : ("mango" : String) ≤ "pear" := string_le_of_toList (by decide)
  refine ⟨?_, ?_, ?_, ?_⟩
  · simp [selection_sort, selection_step, find_least, swap, List.range', l1, l2, l3,
      -String.lt_iff_toList_lt, -String.le_iff_toList_le]
  · simp [merge_sort_vector, vector_range, merge, merge_while, push_stragglers, List.range',
      h1, h2, h3, -String.lt_iff_toList_lt, -String.le_iff_toList_le]
  · simp [merge_sort_list, list_range, advance, deref, merge_l, merge_l_while,
      push_stragglers_l, List.range', h1, h2, h3, -String.lt_iff_toList_lt,
      -String.le_iff_toList_le]
  · refine sorted_perm_unique hsorted hperm ?_ (by decide)
    simp [h1, h4, h5, -String.lt_iff_toList_lt, -String.le_iff_toList_le]

/-- Witness of C9: insertion sort standing in for the library sort. -/
theorem example_pear_apple_mango_witness :
    ((builtin_sort (List.insertionSort (· ≤ ·)) ["pear", "apple", "mango"]).Sorted (· ≤ ·) ∧
      (builtin_sort (List.insertionSort (· ≤ ·)) ["pear", "apple", "mango"]).Perm
        ["pear", "apple", "mango"]) ∧
    (selection_sort ["pear", "apple", "mango"] = some ["apple", "mango", "pear"] ∧
      merge_sort_vector ["pear", "apple", "mango"] = some ["apple", "mango", "pear"] ∧
      merge_sort_list ["pear", "apple", "mango"] = some ["apple", "mango", "pear"] ∧
      builtin_sort (List.insertionSort (· ≤ ·)) ["pear", "apple", "mango"] =
        ["apple", "mango", "pear"]) :=
  ⟨⟨List.sorted_insertionSort _ _, List.perm_insertionSort _ _⟩,
    example_pear_apple_mango (List.insertionSort (· ≤ ·))
      (List.sorted_insertionSort _ _) (List.perm_insertionSort _ _)⟩

/-- C10: on the words `b, a, b, a` each of `selection_sort`,
`merge_sort_vector` and `merge_sort_list` produces exactly `a, a, b, b`: both
copies of either word are kept. -/
theorem example_duplicates :
    selection_sort ["b", "a", "b", "a"] = some ["a", "a", "b", "b"] ∧
      merge_sort_vector ["b", "a", "b", "a"] = some ["a", "a", "b", "b"] ∧
      merge_sort_list ["b", "a", "b", "a"] = some ["a", "a", "b", "b"] := by
  have l1 : ("a" : String) < "b" := string_lt_of_toList (by decide)
  have l2 : ¬ ("b" : String) < "a" := string_not_lt_of_toList (by decide)
  have h1 : ¬ ("b" : String) ≤ "a" := string_not_le_of_toList (by decide)
  refine ⟨?_, ?_, ?_⟩
  · simp [selection_sort, selection_step, find_least, swap, List.range', l1, l2,
      -String.lt_iff_toList_lt, -String.le_iff_toList_le]
  · simp [merge_sort_vector, vector_range, merge, merge_while, push_stragglers, List.range',
      h1, -String.lt_iff_toList_lt, -String.le_iff_toList_le]
  · simp [merge_sort_list, list_range, advance, deref, merge_l, merge_l_while,
      push_stragglers_l, List.range', h1, -String.lt_iff_toList_lt,
      -String.le_iff_toList_le]

/-- C11: the algorithmic core makes no access outside a container.  On every
input vector the run of `selection_sort` performs only valid reads and
exchanges (on the empty vector the outer loop has no round to run), in every
round `k` the indices of the scan, the index exchanged with `k` and `k` itself
are below the length of the vector, and on all `L` and `R` the run of `merge`,
and its main loop from any state, reads `L` and `R` only below their
lengths. -/
theorem core_accesses_in_bounds [LT α] [DecidableRel (α := α) (· < ·)] [LE α]
    [DecidableRel (α := α) (· ≤ ·)] :
    (∀ S : List α, ∃ output, selection_sort S = some output) ∧
    (selection_sort ([] : List α) = some [] ∧
      List.range' 0 ([] : List α).length = ([] : List Nat)) ∧
    (∀ (S : List α) (k : Nat), k < S.length →
      ∃ w least_index w', selection_rounds S k = some w ∧ w.length = S.length ∧
        (∀ i ∈ List.range' (k + 1) (S.length - (k + 1)), i < w.length) ∧
        find_least w S.length k = some least_index ∧ least_index < w.length ∧ k < w.length ∧
        swap w least_index k = some w') ∧
    (∀ L R : List α, ∃ S, merge L R = some S) ∧
    (∀ (L R : List α) (li ri : Nat) (S : List α),
      (li < L.length ∧ ri < R.length → ∃ x y, L[li]? = some x ∧ R[ri]? = some y) ∧
      ∃ state, merge_while L R li ri S = some state) := by
  refine ⟨fun S => ?_, ⟨by simp [selection_sort], rfl⟩, fun S k hk => ?_, fun L R => ?_,
    fun L R li ri S => ⟨fun h => ?_, ?_⟩⟩
  · obtain ⟨w, hw, -, -⟩ := selection_rounds_returns S S.length (le_refl _)
    exact ⟨w, hw⟩
  · obtain ⟨w, hw, hlen, -⟩ := selection_rounds_returns S k (by omega)
    obtain ⟨m, hfind, -, hmlt⟩ := find_least_bounds w k (by omega)
    obtain ⟨w', hswap, -, -, -⟩ := swap_spec w m k hmlt (by omega)
    rw [hlen] at hfind
    refine ⟨w, m, w', hw, hlen, ?_, hfind, hmlt, by omega, hswap⟩
    intro i hi
    rw [List.mem_range'_1] at hi
    omega
  · exact ⟨_, merge_eq L R⟩
  · exact ⟨_, _, List.getElem?_eq_getElem h.1, List.getElem?_eq_getElem h.2⟩
  · have h := merge_while_then_stragglers L R li ri S
    cases hm : merge_while L R li ri S with
    | none => rw [hm] at h; simp at h
    | some state => exact ⟨state, rfl⟩

/-- C12: for all sequences `L` and `R`, sorted or not, `merge(L, R)` returns a
sequence of length `|L| + |R|`. -/
theorem merge_length [LE α] [DecidableRel (α := α) (· ≤ ·)] (L R : List α) :
    ∃ S, merge L R = some S ∧ S.length = L.length + R.length := by
  refine ⟨_, merge_eq L R, ?_⟩
  rw [(List.merge_perm_append _).length_eq, List.length_append]

/-- C13: for all sequences `L` and `R` that are each in non-decreasing order,
`merge(L, R)` returns a sequence in non-decreasing order. -/
theorem merge_sorted [LinearOrder α] (L R : List α) (hL : L.Sorted (· ≤ ·))
    (hR : R.Sorted (· ≤ ·)) :
    ∃ S, merge L R = some S ∧ S.Sorted (· ≤ ·) :=
  ⟨_, merge_eq L R, hL.merge hR⟩

/-- Witness of C13: the sorted words `apple, pear` and `mango, plum`. -/
theorem merge_sorted_witness :
    (["apple", "pear"] : List String).Sorted (· ≤ ·) ∧
      (["mango", "plum"] : List String).Sorted (· ≤ ·) ∧
      ∃ S, merge ["apple", "pear"] ["mango", "plum"] = some S ∧ S.Sorted (· ≤ ·) := by
  have h1 : ("apple" : String) ≤ "pear" := string_le_of_toList (by decide)
  have h2 : ("mango" : String) ≤ "plum" := string_le_of_toList (by decide)
  have hL : (["apple", "pear"] : List String).Sorted (· ≤ ·) := by
    simp [h1, -String.lt_iff_toList_lt, -String.le_iff_toList_le]
  have hR : (["mango", "plum"] : List String).Sorted (· ≤ ·) := by
    simp [h2, -String.lt_iff_toList_lt, -String.le_iff_toList_le]
  exact ⟨hL, hR, merge_sorted ["apple", "pear"] ["mango", "plum"] hL hR⟩

/-- C14: the index loop of `merge` computes the left-biased reference merge:
`merge([], R) = R`, `merge(L, []) = L`, and on non-empty `x :: L'` and
`y :: R'` the result is `x` followed by `merge(L', y :: R')` when `x <= y`,
a tie taking the left element, and `y` followed by `merge(x :: L', R')`
otherwise. -/
theorem merge_is_reference_merge [LE α] [DecidableRel (α := α) (· ≤ ·)] :
    (∀ L R : List α, merge L R = some (reference_merge L R)) ∧
    (∀ R : List α, merge [] R = some R) ∧
    (∀ L : List α, merge L [] = some L) ∧
    (∀ (x y : α) (L' R' : List α),
      merge (x :: L') (y :: R') =
        if x ≤ y then (merge L' (y :: R')).map (fun rest => x :: rest)
        else (merge (x :: L') R').map (fun rest => y :: rest)) := by
  refine ⟨merge_eq_reference, fun R => ?_, fun L => ?_, fun x y L' R' => ?_⟩
  · rw [merge_eq_reference, reference_merge_nil_left]
  · rw [merge_eq_reference, reference_merge_nil_right]
  · simp only [merge_eq_reference, reference_merge_cons_cons]
    split <;> rfl

/-- C15: merge sort is stable.  Over elements under a total preorder, where
elements that compare equal need not be the same, `merge_sort_vector` and
`merge_sort_list` return on every input a sequence in which, for every `x`,
the elements comparing equal to `x` stand in their input order; so any two
elements that compare equal keep their relative order.  The merge step does
the same on sorted `L` and `R`, the elements of `L` counting as earlier. -/
theorem merge_sorts_stable [LE α] [DecidableRel (α := α) (· ≤ ·)] [IsTotal α (· ≤ ·)]
    [IsTrans α (· ≤ ·)] (S : List α) :
    (∃ output, merge_sort_vector S = some output ∧ merge_sort_list S = some output ∧
      stable_output S output ∧
      ∀ a b : α, a ≤ b → b ≤ a → List.Sublist [a, b] S → List.Sublist [a, b] output) ∧
    (∀ L R : List α, L.Sorted (· ≤ ·) → R.Sorted (· ≤ ·) →
      ∃ merged, merge L R = some merged ∧ merge_l L R = some merged ∧
        stable_output (L ++ R) merged) := by
  constructor
  · obtain ⟨out, h, -, -, hst⟩ := merge_sort_vector_stable_spec S
    exact ⟨out, h, by rw [merge_sort_list_eq_vector, h], hst,
      fun a b hab hba hsub => stable_output_pair hst hab hba hsub⟩
  · intro L R hL _
    refine ⟨_, merge_eq L R, merge_l_eq L R, fun x => ?_⟩
    rw [merge_filter_equiv x L R hL, List.filter_append]

/-- Witness of C15: four records with the keys `2, 1, 2, 1`; the two records
of either key keep their order. -/
theorem merge_sorts_stable_witness :
    (IsTotal Keyed (· ≤ ·) ∧ IsTrans Keyed (· ≤ ·)) ∧
      merge_sort_vector [Keyed.mk 2 0, Keyed.mk 1 1, Keyed.mk 2 2, Keyed.mk 1 3] =
        some [Keyed.mk 1 1, Keyed.mk 1 3, Keyed.mk 2 0, Keyed.mk 2 2] ∧
      stable_output [Keyed.mk 2 0, Keyed.mk 1 1, Keyed.mk 2 2, Keyed.mk 1 3]
        [Keyed.mk 1 1, Keyed.mk 1 3, Keyed.mk 2 0, Keyed.mk 2 2] := by
  have hrun : merge_sort_vector [Keyed.mk 2 0, Keyed.mk 1 1, Keyed.mk 2 2, Keyed.mk 1 3] =
      some [Keyed.mk 1 1, Keyed.mk 1 3, Keyed.mk 2 0, Keyed.mk 2 2] := by
    have h1 : ¬ (Keyed.mk 2 0 ≤ Keyed.mk 1 1) := by decide
    have h2 : ¬ (Keyed.mk 2 2 ≤ Keyed.mk 1 3) := by decide
    have h3 : Keyed.mk 1 1 ≤ Keyed.mk 1 3 := by decide
    have h4 : ¬ (Keyed.mk 2 0 ≤ Keyed.mk 1 3) := by decide
    have h5 : Keyed.mk 2 0 ≤ Keyed.mk 2 2 := by decide
    simp [merge_sort_vector, vector_range, merge, merge_while, push_stragglers, List.range',
      h1, h2, h3, h4, h5]
  obtain ⟨out, h, -, hst, -⟩ :=
    (merge_sorts_stable [Keyed.mk 2 0, Keyed.mk 1 1, Keyed.mk 2 2, Keyed.mk 1 3]).1
  rw [hrun] at h
  cases h
  exact ⟨⟨inferInstance, inferInstance⟩, hrun, hst⟩

/-- C16, as amended: selection sort is stable where elements that compare
equal are the same element, as strings are under their linear order: on
every input, for every `x`, the elements comparing equal to `x` stand in the
output as they stand in the input, so any two elements that compare equal
keep their relative order. -/
theorem selection_sort_stable_linear [LinearOrder α] (S : List α) :
    ∃ output, selection_sort S = some output ∧ stable_output S output ∧
      ∀ a b : α, a ≤ b → b ≤ a → List.Sublist [a, b] S → List.Sublist [a, b] output := by
  obtain ⟨out, h, -, hp⟩ := selection_sort_spec S
  have hst : stable_output S out := stable_output_of_perm hp
  exact ⟨out, h, hst, fun a b hab hba hsub => stable_output_pair hst hab hba hsub⟩

/-- C16 as stated fails: on the records with the keys `2, 2, 1` the first round
exchanges the first record with the last, which carries it past the second
record of key 2; the two records of key 2 compare equal and leave
`selection_sort` in the reverse of their input order. -/
theorem selection_sort_not_stable_keyed :
    selection_sort [Keyed.mk 2 0, Keyed.mk 2 1, Keyed.mk 1 2] =
        some [Keyed.mk 1 2, Keyed.mk 2 1, Keyed.mk 2 0] ∧
      (Keyed.mk 2 0 ≤ Keyed.mk 2 1 ∧ Keyed.mk 2 1 ≤ Keyed.mk 2 0) ∧
      List.Sublist [Keyed.mk 2 0, Keyed.mk 2 1] [Keyed.mk 2 0, Keyed.mk 2 1, Keyed.mk 1 2] ∧
      ¬ List.Sublist [Keyed.mk 2 0, Keyed.mk 2 1] [Keyed.mk 1 2, Keyed.mk 2 1, Keyed.mk 2 0] ∧
      ¬ stable_output [Keyed.mk 2 0, Keyed.mk 2 1, Keyed.mk 1 2]
        [Keyed.mk 1 2, Keyed.mk 2 1, Keyed.mk 2 0] := by
  refine ⟨by decide, by decide, by decide, by decide, fun hst => ?_⟩
  have h := hst (Keyed.mk 2 0)
  revert h
  decide

/-- C17: on every input of length `n >= 2`, `merge_sort_vector` and
`merge_sort_list` split the input into the same two parts: `left`, its first
`floor(n / 2)` elements, and `right`, the remaining `ceil(n / 2)` elements,
both in input order, so that `left ++ right` is the input; each sort is the
merge of its results on `left` and on `right`. -/
theorem merge_sorts_split_at_half [LE α] [DecidableRel (α := α) (· ≤ ·)] (S : List α)
    (hn : 2 ≤ S.length) :
    ∃ left right : List α,
      vector_halves S = (left, right) ∧ list_halves S = some (left, right) ∧
      left = S.take (S.length / 2) ∧ right = S.drop (S.length / 2) ∧
      left.length = S.length / 2 ∧ right.length = (S.length + 1) / 2 ∧
      left ++ right = S ∧
      merge_sort_vector S =
        (merge_sort_vector left).bind (fun L =>
          (merge_sort_vector right).bind (fun R => merge L R)) ∧
      merge_sort_list S =
        (merge_sort_list left).bind (fun L =>
          (merge_sort_list right).bind (fun R => merge_l L R)) := by
  have h : ¬ S.length ≤ 1 := by omega
  exact ⟨S.take (S.length / 2), S.drop (S.length / 2), vector_halves_eq S, list_halves_eq S,
    rfl, rfl, take_half_length S, drop_half_length S, List.take_append_drop _ _,
    merge_sort_vector_split S h, merge_sort_list_split S h⟩

/-- Witness of C17: the three words `pear, apple, mango` are split into `pear`
and `apple, mango`. -/
theorem merge_sorts_split_at_half_witness :
    2 ≤ (["pear", "apple", "mango"] : List String).length ∧
      vector_halves ["pear", "apple", "mango"] = (["pear"], ["apple", "mango"]) ∧
      list_halves ["pear", "apple", "mango"] = some (["pear"], ["apple", "mango"]) := by
  obtain ⟨left, right, hv, hl, hleft, hright, -⟩ :=
    merge_sorts_split_at_half ["pear", "apple", "mango"] (by decide)
  have e1 : left = ["pear"] := by rw [hleft]; rfl
  have e2 : right = ["apple", "mango"] := by rw [hright]; rfl
  subst e1 e2
  exact ⟨by decide, hv, hl⟩

/-- C18: in every round `k < n` of the outer loop of `selection_sort`, the
index exchanged with position `k` is the leftmost minimum of the unsorted
zone: it lies in `k, …, n - 1`, its element is `<=` every element at the
positions `k, …, n - 1`, and no smaller index of the zone has that property. -/
theorem selection_exchanges_leftmost_minimum [LinearOrder α] (S : List α) (k : Nat)
    (hk : k < S.length) :
    ∃ (w : List α) (least_index : Nat) (w' : List α),
      selection_rounds S k = some w ∧ w.length = S.length ∧
      find_least w S.length k = some least_index ∧
      swap w least_index k = some w' ∧ selection_rounds S (k + 1) = some w' ∧
      (k ≤ least_index ∧ least_index < S.length ∧
        ∀ j, k ≤ j → j < S.length →
          ∀ x y, w[least_index]? = some x → w[j]? = some y → x ≤ y) ∧
      ∀ i, (k ≤ i ∧ i < S.length ∧
          ∀ j, k ≤ j → j < S.length → ∀ x y, w[i]? = some x → w[j]? = some y → x ≤ y) →
        least_index ≤ i := by
  obtain ⟨w, hw, hlen, -, -⟩ := selection_rounds_spec S k (by omega)
  obtain ⟨m, hfind, hkm, hmlt, hmin, hleft⟩ := find_least_spec w k (by omega)
  obtain ⟨w', hswap, -, -, -⟩ := swap_spec w m k hmlt (by omega)
  rw [hlen] at hfind hmlt
  refine ⟨w, m, w', hw, hlen, hfind, hswap, ?_, ⟨hkm, hmlt, fun j hj _ => hmin j hj⟩, ?_⟩
  · rw [selection_rounds_succ, hw]
    simp [selection_step, hfind, hswap]
  · intro i ⟨hki, hin, hi⟩
    by_contra hlt
    have him : i < m := by omega
    have hilt : i < w.length := by omega
    have hmlt' : m < w.length := by omega
    have h1 := hleft i hki him _ _ (List.getElem?_eq_getElem hmlt') (List.getElem?_eq_getElem hilt)
    have h2 := hi m hkm hmlt _ _ (List.getElem?_eq_getElem hilt) (List.getElem?_eq_getElem hmlt')
    exact absurd h1 (not_lt.mpr h2)

/-- Witness of C18: round 0 on the words `pear, apple, mango, apple`, where
the least word stands at the positions 1 and 3. -/
theorem selection_exchanges_leftmost_minimum_witness :
    0 < (["pear", "apple", "mango", "apple"] : List String).length ∧
      ∃ (w : List String) (least_index : Nat) (w' : List String),
        selection_rounds ["pear", "apple", "mango", "apple"] 0 = some w ∧
        w.length = (["pear", "apple", "mango", "apple"] : List String).length ∧
        find_least w (["pear", "apple", "mango", "apple"] : List String).length 0 =
          some least_index ∧
        swap w least_index 0 = some w' ∧
        selection_rounds ["pear", "apple", "mango", "apple"] (0 + 1) = some w' ∧
        (0 ≤ least_index ∧
          least_index < (["pear", "apple", "mango", "apple"] : List String).length ∧
          ∀ j, 0 ≤ j → j < (["pear", "apple", "mango", "apple"] : List String).length →
            ∀ x y, w[least_index]? = some x → w[j]? = some y → x ≤ y) ∧
        ∀ i, (0 ≤ i ∧ i < (["pear", "apple", "mango", "apple"] : List String).length ∧
            ∀ j, 0 ≤ j → j < (["pear", "apple", "mango", "apple"] : List String).length →
              ∀ x y, w[i]? = some x → w[j]? = some y → x ≤ y) →
          least_index ≤ i := by
  refine ⟨by decide, ?_⟩
  convert selection_exchanges_leftmost_minimum ["pear", "apple", "mango", "apple"] 0
    (by decide)

/-- C19: `merge_sort_vector` and `merge_sort_list` run to completion on every
input.  On an input of length `n >= 2` both recursive calls receive a part
that is non-empty and strictly shorter than `n`; an input of length at most 1
is returned without a recursive call; and the depth of the recursion is at
most the binary logarithm of `n`, rounded up. -/
theorem merge_sorts_terminate [LE α] [DecidableRel (α := α) (· ≤ ·)] :
    (∀ S : List α, ∃ output, merge_sort_vector S = some output ∧
      merge_sort_list S = some output) ∧
    (∀ S : List α, 2 ≤ S.length →
      ∃ left right : List α,
        vector_halves S = (left, right) ∧ list_halves S = some (left, right) ∧
        (0 < left.length ∧ left.length < S.length) ∧
        (0 < right.length ∧ right.length < S.length) ∧
        merge_sort_vector S =
          (merge_sort_vector left).bind (fun L =>
            (merge_sort_vector right).bind (fun R => merge L R)) ∧
        merge_sort_list S =
          (merge_sort_list left).bind (fun L =>
            (merge_sort_list right).bind (fun R => merge_l L R))) ∧
    (∀ S : List α, S.length ≤ 1 →
      merge_sort_vector S = some S ∧ merge_sort_list S = some S ∧
      merge_sort_vector_depth S = 0 ∧ merge_sort_list_depth S = 0) ∧
    (∀ S : List α, 1 ≤ S.length →
      2 ^ merge_sort_vector_depth S < 2 * S.length ∧
      merge_sort_list_depth S = merge_sort_vector_depth S) := by
  refine ⟨fun S => ?_, fun S hn => ?_, fun S h => ?_, fun S h => ?_⟩
  · obtain ⟨out, h, -⟩ := merge_sort_vector_returns_perm S
    exact ⟨out, h, by rw [merge_sort_list_eq_vector, h]⟩
  · have h : ¬ S.length ≤ 1 := by omega
    refine ⟨S.take (S.length / 2), S.drop (S.length / 2), vector_halves_eq S,
      list_halves_eq S, ?_, ?_, merge_sort_vector_split S h, merge_sort_list_split S h⟩
    · rw [take_half_length]; omega
    · rw [drop_half_length]; omega
  · exact ⟨merge_sort_vector_small S h, merge_sort_list_small S h,
      merge_sort_vector_depth_small S h,
      by rw [merge_sort_list_depth_eq_vector, merge_sort_vector_depth_small S h]⟩
  · exact ⟨merge_sort_vector_depth_bound S h, merge_sort_list_depth_eq_vector S⟩

/-- C20: the loop invariant of `selection_sort`.  On every input of length `n`
and for every `k <= n`, the first `k` rounds of the outer loop run without an
invalid access and leave a vector of length `n` whose first `k` positions are
in non-decreasing order and hold elements `<=` every element at the positions
`k, …, n - 1`; `n` rounds are the whole of `selection_sort`. -/
theorem selection_loop_invariant [LinearOrder α] (S : List α) (k : Nat)
    (hk : k ≤ S.length) :
    (∃ w, selection_rounds S k = some w ∧ w.length = S.length ∧
      (∀ i j x y, i < j → j < k → w[i]? = some x → w[j]? = some y → x ≤ y) ∧
      (∀ i j x y, i < k → k ≤ j → j < S.length →
        w[i]? = some x → w[j]? = some y → x ≤ y)) ∧
    selection_rounds S S.length = selection_sort S := by
  obtain ⟨w, hw, hlen, -, hinv⟩ := selection_rounds_spec S k hk
  refine ⟨⟨w, hw, hlen, ?_, ?_⟩, rfl⟩
  · intro i j x y hij hjk hx hy
    exact hinv i j x y hij (by omega) hx hy
  · intro i j x y hik hkj _ hx hy
    exact hinv i j x y (by omega) hik hx hy

/-- Witness of C20: two rounds on the words `pear, mango, apple, fig`. -/
theorem selection_loop_invariant_witness :
    2 ≤ (["pear", "mango", "apple", "fig"] : List String).length ∧
      ∃ w, selection_rounds ["pear", "mango", "apple", "fig"] 2 = some w ∧
        w.length = (["pear", "mango", "apple", "fig"] : List String).length ∧
        (∀ i j x y, i < j → j < 2 → w[i]? = some x → w[j]? = some y → x ≤ y) ∧
        (∀ i j x y, i < 2 → 2 ≤ j →
          j < (["pear", "mango", "apple", "fig"] : List String).length →
          w[i]? = some x → w[j]? = some y → x ≤ y) := by
  refine ⟨by decide, ?_⟩
  convert (selection_loop_invariant ["pear", "mango", "apple", "fig"] 2 (by decide)).1

/-- C21, as amended: in `merge_l`, on all lists `L` and `R`, each cursor stands
at every moment of the run on the position named by the counter that guards
its reads: `li_it` on `li` in the main loop, on the loop counter `i` in the
straggler loop of `L` (where `li` is no longer incremented) and at the end of
`L` afterwards; `ri_it` on `ri` up to the straggler loop of `R`, on the loop
counter `i` in that loop and at the end of `R` at the `return`.  Hence no
step of the run makes an invalid access, a cursor whose counter is below the
size of its list is not at the end when it is read, and the cursors have
been advanced at most `|L|` and `|R|` times, exactly so often at the `return`,
where `S` is the list that `merge_l` returns. -/
theorem merge_l_cursors_follow_counters [LE α] [DecidableRel (α := α) (· ≤ ·)]
    (L R : List α) :
    (∀ n : Nat, ∃ st, merge_l_run L R n = some st ∧
      (st.li_it = L.drop (li_it_position L st) ∧ st.ri_it = R.drop (ri_it_position R st)) ∧
      (st.phase = MergeLPhase.main_loop → cursors_at_li_ri L R st) ∧
      (li_it_position L st < L.length → ∃ x, deref st.li_it = some x) ∧
      (ri_it_position R st < R.length → ∃ y, deref st.ri_it = some y) ∧
      (∃ next, merge_l_step L R st = some next) ∧
      (st.li_advances = li_it_position L st ∧ st.li_advances ≤ L.length) ∧
      (st.ri_advances = ri_it_position R st ∧ st.ri_advances ≤ R.length)) ∧
    (∃ st, merge_l_run L R (L.length + R.length + 3) = some st ∧
      st.phase = MergeLPhase.returned ∧ merge_l L R = some st.S ∧
      st.li_advances = L.length ∧ st.ri_advances = R.length) := by
  constructor
  · intro n
    obtain ⟨st, hrun, hinv⟩ := merge_l_cursor_invariant_run L R n
    obtain ⟨next, hnext, -⟩ := merge_l_cursor_invariant_step L R st hinv
    obtain ⟨h1, h2, h3, h4, h5, h6, -, -⟩ := hinv
    refine ⟨st, hrun, ⟨h1, h2⟩, ?_, ?_, ?_, ⟨next, hnext⟩, ⟨h5, by omega⟩, ⟨h6, by omega⟩⟩
    · intro hph
      simp only [li_it_position, ri_it_position, hph] at h1 h2
      exact ⟨h1, h2⟩
    · intro hlt
      exact ⟨_, by rw [h1]; exact deref_drop L _ hlt⟩
    · intro hlt
      exact ⟨_, by rw [h2]; exact deref_drop R _ hlt⟩
  · obtain ⟨st, hrun, hph, hS⟩ := merge_l_run_returns L R
    obtain ⟨st', hrun', hinv⟩ := merge_l_cursor_invariant_run L R (L.length + R.length + 3)
    rw [hrun] at hrun'
    cases hrun'
    obtain ⟨-, -, -, -, h5, h6, -, -⟩ := hinv
    simp only [li_it_position, ri_it_position, hph] at h5 h6
    exact ⟨st, hrun, hph, hS, h5, h6⟩

/-- C21 as stated fails in the straggler loops.  On `L = mango, pear` and
`R = apple, fig`, the two sorted halves of `pear, mango, fig, apple`, the main
loop ends with `li = 0`; after the first round of the straggler loop of `L`
the cursor `li_it` stands on `pear`, position 1, where it is read next, while
`li` is still 0. -/
theorem merge_l_cursor_leaves_li :
    ∃ st, merge_l_run ["mango", "pear"] ["apple", "fig"] 4 = some st ∧
      st.phase = MergeLPhase.stragglers_L 1 ∧ st.li = 0 ∧ st.li_it = ["pear"] ∧
      deref st.li_it = some "pear" ∧
      ¬ cursors_at_li_ri ["mango", "pear"] ["apple", "fig"] st := by
  have h1 : ¬ ("mango" : String) ≤ "apple" := string_not_le_of_toList (by decide)
  have h2 : ¬ ("mango" : String) ≤ "fig" := string_not_le_of_toList (by decide)
  refine ⟨{ phase := MergeLPhase.stragglers_L 1, li := 0, ri := 2, li_it := ["pear"],
            ri_it := [], S := ["apple", "fig", "mango"], li_advances := 1, ri_advances := 2 },
    ?_, rfl, rfl, rfl, rfl, ?_⟩
  · simp [merge_l_run, merge_l_start, merge_l_steps, merge_l_step, deref, advance, h1, h2,
      -String.lt_iff_toList_lt, -String.le_iff_toList_le]
  · intro h
    have := h.1
    simp at this

end Claims

end SortComparison
